import Mathlib

/-!
Verification of the Bjorn-Manager core subsystems against their
natural-language specification.

The development shallowly embeds the relevant Python code:

* `bjorn_manager/ssh/worker.py` — the `SSHWorker.run_install` output-processing
  loop (progress extraction, sudo password injection) and `SSHWorker.connect`
  (key-first authentication with password fallback).
* `bjorn_manager/discovery/device.py` — `DeviceAliasManager` (alias allocation).
* `bjorn_manager/discovery/manager.py` — the `Discovery` sighting pipeline
  (`_emit_device`), the staleness sweeper (`_sweeper_loop`), the webapp poller
  (`_port8000_poll`) and the hostname helpers.

Python strings are modelled as `List Char` restricted to the ASCII behaviour of
`str.lower` / `str.strip` / `str.split` / `str.splitlines` / `int`, which is
exact on the inputs the program handles.  Network and filesystem effects are
passed in explicitly (probe results, reverse-DNS answers, auth outcomes).
-/

namespace BjornMgr

/-- Python string model: a list of characters. -/
abbrev Str := List Char

/-- ASCII model of Python whitespace (the characters matched by `\s` and
stripped by `str.strip`): space, tab, newline, carriage return, vertical tab,
form feed. -/
def isWS (c : Char) : Bool :=
  c == ' ' || c == '\t' || c == '\n' || c == '\r' || c.toNat == 11 || c.toNat == 12

/-- Model of `str.lower` (ASCII case folding, pointwise). -/
def lowerL (s : Str) : Str := s.map Char.toLower

/-- Model of `str.strip()`: drop whitespace from both ends. -/
def stripL (s : Str) : Str :=
  ((s.dropWhile isWS).reverse.dropWhile isWS).reverse

/-- Model of `str.rstrip(".")`: drop trailing dots. -/
def rstripDots (s : Str) : Str :=
  (s.reverse.dropWhile (fun c => c == '.')).reverse

/-- Line-break characters recognised by Python `str.splitlines`
(`\n`, `\r`, `\v`, `\f`, the separator controls, NEL, LS, PS). -/
def isLineBreak (c : Char) : Bool :=
  c.toNat == 10 || c.toNat == 13 || c.toNat == 11 || c.toNat == 12 ||
  c.toNat == 28 || c.toNat == 29 || c.toNat == 30 || c.toNat == 133 ||
  c.toNat == 8232 || c.toNat == 8233

/-- Worker for `pySplitlines`; `acc` holds the current (reversed) line. -/
def splitlinesGo : Str → Str → List Str
  | [], acc => if acc.isEmpty then [] else [acc.reverse]
  | '\r' :: '\n' :: rest, acc => acc.reverse :: splitlinesGo rest []
  | c :: rest, acc =>
    if isLineBreak c then acc.reverse :: splitlinesGo rest []
    else splitlinesGo rest (c :: acc)

/-- Model of Python `str.splitlines()`: split at line boundaries (treating
`\r\n` as one boundary), no trailing empty line for a terminated last line. -/
def pySplitlines (s : Str) : List Str := splitlinesGo s []

/-- Worker for `pySplitWS`; `acc` holds the current (reversed) token. -/
def splitWSGo : Str → Str → List Str
  | [], acc => if acc.isEmpty then [] else [acc.reverse]
  | c :: rest, acc =>
    if isWS c then
      if acc.isEmpty then splitWSGo rest [] else acc.reverse :: splitWSGo rest []
    else splitWSGo rest (c :: acc)

/-- Model of Python `str.split()` with no argument: split on runs of
whitespace, discarding empty tokens. -/
def pySplitWS (s : Str) : List Str := splitWSGo s []

/-- Numeric value of an ASCII digit character. -/
def digitVal (c : Char) : Nat := c.toNat - 48

/-- Decimal value of a digit string (most significant first). -/
def digitsToNat (ds : Str) : Nat := ds.foldl (fun a c => a * 10 + digitVal c) 0

/-- Continuation of Python `int` digit parsing after the first digit: digits,
with single underscores allowed between digits (`int("1_0") = 10`). -/
def intDigitsGo : Str → Nat → Option Nat
  | [], acc => some acc
  | c :: rest, acc =>
    if c == '_' then
      match rest with
      | [] => none
      | c2 :: rest2 =>
        if c2.isDigit then intDigitsGo rest2 (acc * 10 + digitVal c2) else none
    else if c.isDigit then intDigitsGo rest (acc * 10 + digitVal c) else none

/-- Parse a nonempty digit sequence (first char must be a digit). -/
def startDigits : Str → Option Nat
  | [] => none
  | c :: rest => if c.isDigit then intDigitsGo rest (digitVal c) else none

/-- ASCII model of Python `int(token)` on a whitespace-free token: optional
sign, then decimal digits (underscore separators allowed); `none` models the
raised `ValueError`. -/
def pyIntOfTok : Str → Option Int
  | [] => none
  | c :: rest =>
    if c == '-' then (startDigits rest).map (fun n => -(n : Int))
    else if c == '+' then (startDigits rest).map (fun n => (n : Int))
    else (startDigits (c :: rest)).map (fun n => (n : Int))

/-! ### The step-progress regex

`STEP_PATTERN = re.compile(r"Step\s+(\d+)\s+of\s+(\d+)", re.I)` in
`ssh/worker.py`.  The character classes of neighbouring pieces are disjoint
(letters / whitespace / digits), so greedy matching without backtracking is
exact for this pattern, and `re.search` is leftmost-first. -/

/-- Match a literal pattern case-insensitively at the head of `s`, returning
the rest of `s` on success. -/
def matchCI : Str → Str → Option Str
  | [], s => some s
  | _ :: _, [] => none
  | p :: ps, c :: cs => if c.toLower == p.toLower then matchCI ps cs else none

/-- Match `\s+` at the head: one mandatory whitespace char, then maximal run. -/
def takeWS1 : Str → Option Str
  | [] => none
  | c :: cs => if isWS c then some (cs.dropWhile isWS) else none

/-- Match `(\d+)` at the head greedily, returning its decimal value and the
rest. -/
def takeDigits1 : Str → Option (Nat × Str)
  | [] => none
  | c :: cs =>
    if c.isDigit then
      some (digitsToNat (c :: cs.takeWhile Char.isDigit), cs.dropWhile Char.isDigit)
    else none

/-- Attempt to match `Step\s+(\d+)\s+of\s+(\d+)` (case-insensitive) at the
head of `s`; on success return the two captured numbers. -/
def stepMatchAt (s : Str) : Option (Nat × Nat) :=
  match matchCI "Step".toList s with
  | none => none
  | some s1 =>
    match takeWS1 s1 with
    | none => none
    | some s2 =>
      match takeDigits1 s2 with
      | none => none
      | some (n, s3) =>
        match takeWS1 s3 with
        | none => none
        | some s4 =>
          match matchCI "of".toList s4 with
          | none => none
          | some s5 =>
            match takeWS1 s5 with
            | none => none
            | some s6 =>
              match takeDigits1 s6 with
              | none => none
              | some (t, _) => some (n, t)

/-- Model of `STEP_PATTERN.search(line)`: leftmost match of the step-progress
marker, returning the captured `(n, total)`. -/
def stepSearch : Str → Option (Nat × Nat)
  | [] => none
  | c :: cs =>
    match stepMatchAt (c :: cs) with
    | some r => some r
    | none => stepSearch cs

/-! ### The `run_install` output-processing loop

Embeds the `while True:` loop of `SSHWorker.run_install` (worker.py lines
315–356): per received chunk, decode and split into lines, log each nonblank
line and emit a progress event on a step-marker match; then (every iteration)
check the accumulated buffer for a sudo prompt and send the password once.
After `exit_status_ready`, remaining chunks are drained as log lines only. -/

/-- An observable action of the installation-driving loop. -/
inductive IEvent where
  | logLine (line : Str)
  | progress (n total : Nat)
  | pwSend
  deriving DecidableEq

/-- State of the output-processing loop: the `pw_sent` flag, the accumulated
`buff`, and the events emitted so far (in order). -/
structure InstState where
  pw_sent : Bool
  buff : Str
  events : List IEvent
  deriving DecidableEq

/-- Events emitted for one received line: a log event when the stripped line
is nonblank, then a progress event when the step pattern matches. -/
def lineEvents (line : Str) : List IEvent :=
  if (stripL line).isEmpty then []
  else
    IEvent.logLine line ::
      (match stepSearch line with
       | some (n, t) => [IEvent.progress n t]
       | none => [])

/-- Events emitted while line-processing one received chunk. -/
def chunkLineEvents (data : Str) : List IEvent :=
  (pySplitlines data).flatMap lineEvents

/-- Model of Python substring containment `pat in s`. -/
def isSubstr (pat : Str) : Str → Bool
  | [] => pat.isEmpty
  | c :: cs => pat.isPrefixOf (c :: cs) || isSubstr pat cs

/-- The sudo-prompt test on the accumulated buffer:
`b"[sudo]" in buff.lower() or b"password for" in buff.lower()`. -/
def promptIn (b : Str) : Bool :=
  isSubstr "[sudo]".toList (lowerL b) || isSubstr "password for".toList (lowerL b)

/-- The `if not pw_sent:` block run on every loop iteration: on a prompt
match, send the password (recorded as `pwSend`), set the flag, clear the
buffer. -/
def pwCheck (st : InstState) : InstState :=
  if st.pw_sent then st
  else if promptIn st.buff then
    { st with pw_sent := true, buff := [], events := st.events ++ [IEvent.pwSend] }
  else st

/-- One loop iteration in which `recv_ready()` was true: append the chunk to
the buffer, process its lines, then run the password check. -/
def stepChunk (st : InstState) (data : Str) : InstState :=
  pwCheck { st with buff := st.buff ++ data, events := st.events ++ chunkLineEvents data }

/-- Input to one iteration of the main loop: either a received chunk, or an
iteration in which no data was ready (the password check still runs). -/
inductive InstIn where
  | recv (data : Str)
  | idle

/-- One iteration of the main loop. -/
def instStep (st : InstState) : InstIn → InstState
  | InstIn.recv data => stepChunk st data
  | InstIn.idle => pwCheck st

/-- One chunk of the final drain (after `exit_status_ready()`): nonblank
lines are logged; no progress extraction and no password check. -/
def drainChunk (st : InstState) (data : Str) : InstState :=
  { st with
    events := st.events ++
      (pySplitlines data).flatMap
        (fun l => if (stripL l).isEmpty then [] else [IEvent.logLine l]) }

/-- Initial loop state: `pw_sent = False`, empty buffer, no events. -/
def instInit : InstState := ⟨false, [], []⟩

/-- The whole output-processing phase of `run_install`: the main poll loop
over `main`, then the drain over `drain`. -/
def runInstall (main : List InstIn) (drain : List Str) : InstState :=
  drain.foldl drainChunk (main.foldl instStep instInit)

/-- The progress events among an event list, in order. -/
def progressEvents (evs : List IEvent) : List (Nat × Nat) :=
  evs.filterMap (fun e =>
    match e with
    | IEvent.progress n t => some (n, t)
    | _ => none)

/-- The progress event (if any) the loop emits for one received line. -/
def lineProgress (line : Str) : Option (Nat × Nat) :=
  if (stripL line).isEmpty then none else stepSearch line

/-- Number of password writes among an event list. -/
def pwCount (evs : List IEvent) : Nat :=
  evs.countP (fun e => e == IEvent.pwSend)

/-- The progress events contributed by one main-loop input. -/
def instInProgress : InstIn → List (Nat × Nat)
  | InstIn.recv d => (pySplitlines d).filterMap lineProgress
  | InstIn.idle => []

/-- The loop invariant tying the `pw_sent` flag to the number of password
writes emitted so far. -/
def pwInv (st : InstState) : Prop :=
  (st.pw_sent = false → pwCount st.events = 0) ∧ pwCount st.events ≤ 1

/-! ### The device alias manager

Embeds `DeviceAliasManager` from `discovery/device.py`: `self.map` is the
(insertion-ordered) binding of device ids to aliases, `_next_index` scans the
values for aliases of the form `"Bjorn <int>"` and returns the lowest unused
positive index, and `alias_for` returns the existing alias or allocates
`f"Bjorn {n}"`.  `Discovery` constructs it with `path=None`, so persistence is
a no-op. -/

/-- The alias manager's `self.map`: device id → alias, in insertion order
(Python dicts preserve insertion order, and `values()` iterates it). -/
abbrev AliasMap := List (Str × Str)

/-- The numeric suffix a `_next_index` loop iteration extracts from one alias:
`some z` when `alias.lower().startswith("bjorn ")` and
`int(alias.split()[-1])` succeeds, `none` when the alias is skipped (either
because the prefix test fails or because the swallowed exception fires). -/
def parseAliasNum (a : Str) : Option Int :=
  if ("bjorn ".toList).isPrefixOf (lowerL a) then
    match (pySplitWS a).getLast? with
    | some tok => pyIntOfTok tok
    | none => none
  else none

/-- `set.add`: append when absent (keeps the used-set duplicate-free). -/
def addUsed (s : List Int) (x : Int) : List Int :=
  if x ∈ s then s else s ++ [x]

/-- The `used` set accumulated by `_next_index` over the map's values. -/
def usedNums (vals : List Str) : List Int :=
  vals.foldl
    (fun s a =>
      match parseAliasNum a with
      | some z => addUsed s z
      | none => s) []

/-- The `n = 1; while n in used: n += 1` loop.  The fuel `|used| + 1` is an
upper bound on the iterations the Python loop can make before leaving the
(duplicate-free) used set, so the fueled loop computes the same result. -/
def nextFreeGo : Nat → Nat → List Int → Nat
  | 0, n, _ => n
  | fuel + 1, n, used =>
    if (n : Int) ∈ used then nextFreeGo fuel (n + 1) used else n

/-- `DeviceAliasManager._next_index`: the lowest unused 1-based Bjorn index. -/
def nextIndex (m : AliasMap) : Nat :=
  let used := usedNums (m.map Prod.snd)
  nextFreeGo (used.length + 1) 1 used

/-- Fueled decimal rendering; the fuel only needs to exceed the digit
count, so `natStr` below supplies `n + 1`. -/
def natStrAux : Nat → Nat → Str
  | 0, _ => []
  | fuel + 1, n =>
    if n < 10 then [Char.ofNat (48 + n)]
    else natStrAux fuel (n / 10) ++ [Char.ofNat (48 + n % 10)]

/-- Decimal rendering of a natural number (the `{n}` of `f"Bjorn {n}"`). -/
def natStr (n : Nat) : Str := natStrAux (n + 1) n

/-- The alias string `f"Bjorn {n}"`. -/
def mkBjorn (n : Nat) : Str := "Bjorn ".toList ++ natStr n

/-- Dictionary lookup `device_id in self.map` / `self.map[device_id]`. -/
def lookupAlias (m : AliasMap) (key : Str) : Option Str :=
  (m.find? (fun p => p.1 == key)).map Prod.snd

/-- `DeviceAliasManager.alias_for`: return the existing alias, or bind the
key to `f"Bjorn {self._next_index()}"` (persistence with `path=None` is a
no-op). -/
def aliasFor (m : AliasMap) (key : Str) : Str × AliasMap :=
  match lookupAlias m key with
  | some a => (a, m)
  | none =>
    let a := mkBjorn (nextIndex m)
    (a, m ++ [(key, a)])

/-- Allocate aliases for a list of device keys in order. -/
def allocAll (m : AliasMap) (keys : List Str) : AliasMap :=
  keys.foldl (fun acc k => (aliasFor acc k).2) m

/-- An alias map as loaded from a persistence file with malformed entries:
one alias lacking the `"Bjorn "` prefix, one whose final token is not an
integer, and one well-formed `"Bjorn 1"`. -/
def malformedMap : AliasMap :=
  [("a".toList, "Device 3".toList), ("b".toList, "Bjorn x".toList),
   ("c".toList, "Bjorn 1".toList)]

/-! ### The discovery sighting pipeline

Embeds `Discovery` from `discovery/manager.py`: `_normalize_host`,
`_is_bjorn_hostname`, `_device_key`, `_ip_tag`, `_is_ignored_ip`,
`_emit_device`, the staleness sweeper body of `_sweeper_loop`, and the
`webapp_status` emission of `_port8000_poll`.  Network effects are supplied
as sighting data: the reverse-DNS answer and the port-8000 probe result are
inputs, timestamps (`time.time()`) are explicit integers. -/

/-- A discovery event pushed to the API callback (the `log` events carry no
address and are not modelled). -/
inductive DEvent where
  | deviceFound (al ip : Str) (webapp : Bool)
  | deviceGone (ip : Str)
  | webappStatus (ip : Str) (up : Bool)
  deriving DecidableEq

/-- One registry record: `{"alias": ..., "ips": ..., "last_seen": ...}`.
The IP set is kept in insertion order. -/
structure DevRec where
  devAlias : Str
  ips : List Str
  last_seen : Int
  deriving DecidableEq

/-- One sighting fed to `_emit_device`: the candidate label and IP, the
reverse-DNS answer for the IP (an input, since DNS is a network effect), the
port-8000 probe result, and the current time. -/
structure Sighting where
  label : Str
  ip : Str
  revHost : Option Str
  probe8000 : Bool
  now : Int

/-- Configuration fixed at `Discovery` construction: `strict_bjorn_only` and
the startup-computed ignore list `_ignored_ips`. -/
structure DiscParams where
  strict : Bool
  ignored : List Str

/-- The mutable discovery state: `_seen_ips`, `_registry`, the alias
manager's map, and the events pushed so far (in order). -/
structure DiscState where
  seen_ips : List Str
  registry : List (Str × DevRec)
  aliasMap : AliasMap
  events : List DEvent
  deriving DecidableEq

/-- The state at `start()`: everything empty. -/
def discInit : DiscState := ⟨[], [], [], []⟩

/-- `Discovery._normalize_host`: on a missing or empty host return `""`,
otherwise strip, lower-case, strip trailing dots, and drop one `.local` or
`.home` suffix. -/
def normalizeHost : Option Str → Str
  | none => []
  | some hs =>
    if hs.isEmpty then []
    else
      let h := rstripDots (lowerL (stripL hs))
      if (".local".toList).isSuffixOf h then h.take (h.length - 6)
      else if (".home".toList).isSuffixOf h then h.take (h.length - 5)
      else h

/-- The normalization `_is_bjorn_hostname` applies before its tests:
`host_or_fullname.strip().lower().rstrip(".")`. -/
def bjornNorm (h0 : Str) : Str := rstripDots (lowerL (stripL h0))

/-- `Discovery._is_bjorn_hostname`. -/
def isBjornHostname (h0 : Str) : Bool :=
  if h0.isEmpty then false
  else
    if bjornNorm h0 = "bjorn.local".toList || bjornNorm h0 = "bjorn.home".toList
    then true
    else if ("bjorn".toList).isPrefixOf (bjornNorm h0)
        && ((".local".toList).isSuffixOf (bjornNorm h0)
            || (".home".toList).isSuffixOf (bjornNorm h0)) then true
    else
      bjornNorm h0 = "bjorn".toList || ("bjorn-".toList).isPrefixOf (bjornNorm h0)
        || ("bjorn_".toList).isPrefixOf (bjornNorm h0)

/-- `Discovery._device_key(label, ip)`: normalized hostname when it matches
the Bjorn convention, else the IP.  `revHost` stands for the
`_reverse_hostname(ip)` lookup made when the label is falsy. -/
def deviceKeyOf (labelArg : Str) (revHost : Option Str) (ip : Str) : Str :=
  let host := normalizeHost (if labelArg.isEmpty then revHost else some labelArg)
  if isBjornHostname host then host else ip

/-- `Discovery._ip_tag`. -/
def ipTag (ip : Str) : Str :=
  if ("172.20.2.".toList).isPrefixOf ip then "USB".toList
  else if ("172.20.1.".toList).isPrefixOf ip then "Bluetooth".toList
  else "LAN".toList

/-- `set.add` on the seen-IPs set (kept duplicate-free, insertion order). -/
def addSeen (s : List Str) (ip : Str) : List Str :=
  if ip ∈ s then s else s ++ [ip]

/-- Registry lookup `self._registry.get(device_key)`. -/
def findRec (reg : List (Str × DevRec)) (key : Str) : Option DevRec :=
  (reg.find? (fun p => p.1 == key)).map Prod.snd

/-- In-place update of the record bound to `key`. -/
def replaceRec (reg : List (Str × DevRec)) (key : Str) (r : DevRec) :
    List (Str × DevRec) :=
  reg.map (fun p => if p.1 == key then (key, r) else p)

/-- The registry-mutation block of `_emit_device` (under `_registry_lock`):
create or update the record, add the IP, refresh `last_seen`; returns the
new registry with the `is_new_device` and `is_new_ip_for_device` flags. -/
def registerSight (reg : List (Str × DevRec)) (key base ip : Str) (now : Int) :
    List (Str × DevRec) × Bool × Bool :=
  match findRec reg key with
  | none => (reg ++ [(key, ⟨base, [ip], now⟩)], true, true)
  | some r =>
    if ip ∈ r.ips then
      (replaceRec reg key { r with last_seen := now }, false, false)
    else
      (replaceRec reg key { r with ips := r.ips ++ [ip], last_seen := now },
        false, true)

/-- `Discovery._emit_device(label, ip)`. -/
def emitDevice (p : DiscParams) (st : DiscState) (s : Sighting) : DiscState :=
  if s.ip ∈ p.ignored then st
  else
    let st1 := { st with seen_ips := addSeen st.seen_ips s.ip }
    let host := normalizeHost (if s.label.isEmpty then s.revHost else some s.label)
    if p.strict && ! isBjornHostname host then st1
    else
      let key := deviceKeyOf host s.revHost s.ip
      let tag := ipTag s.ip
      let ba := aliasFor st1.aliasMap key
      let alias2 := ba.1 ++ " (".toList ++ tag ++ ")".toList
      let rs := registerSight st1.registry key ba.1 s.ip s.now
      { seen_ips := st1.seen_ips, registry := rs.1, aliasMap := ba.2,
        events := st1.events ++
          (if rs.2.1 || rs.2.2
           then [DEvent.deviceFound alias2 s.ip s.probe8000] else []) }

/-- One pass of the `_sweeper_loop` body: emit `device_gone` per IP of every
stale record, then remove the stale records. -/
def sweepOnce (st : DiscState) (now timeout : Int) : DiscState :=
  let staleP : Str × DevRec → Bool := fun kr => decide (now - kr.2.last_seen > timeout)
  { st with
    registry := st.registry.filter (fun kr => ! staleP kr),
    events := st.events ++
      (st.registry.filter staleP).flatMap (fun kr => kr.2.ips.map DEvent.deviceGone) }

/-- One cycle of `_port8000_poll`: probe each seen IP and emit its
`webapp_status`; the probe outcome is an input. -/
def pollOnce (st : DiscState) (probe : Str → Bool) : DiscState :=
  { st with
    events := st.events ++ st.seen_ips.map (fun ip => DEvent.webappStatus ip (probe ip)) }

/-- An externally triggered discovery action: a sighting reaching
`_emit_device` (from mDNS, the CIDR scan, or a reverse lookup), a sweeper
pass, or a poller cycle. -/
inductive DStep where
  | sight (s : Sighting)
  | sweep (now timeout : Int)
  | poll (probe : Str → Bool)

/-- Run a sequence of discovery actions. -/
def runDisc (p : DiscParams) (st : DiscState) : List DStep → DiscState
  | [] => st
  | DStep.sight s :: rest => runDisc p (emitDevice p st s) rest
  | DStep.sweep now timeout :: rest => runDisc p (sweepOnce st now timeout) rest
  | DStep.poll probe :: rest => runDisc p (pollOnce st probe) rest

/-- The address an event is about. -/
def eventIp : DEvent → Str
  | DEvent.deviceFound _ ip _ => ip
  | DEvent.deviceGone ip => ip
  | DEvent.webappStatus ip _ => ip

/-- The `device_found` events among an event list. -/
def foundEvents (evs : List DEvent) : List DEvent :=
  evs.filter (fun e =>
    match e with
    | DEvent.deviceFound _ _ _ => true
    | _ => false)

/-- The `device_gone` events among an event list. -/
def goneEvents (evs : List DEvent) : List DEvent :=
  evs.filter (fun e =>
    match e with
    | DEvent.deviceGone _ => true
    | _ => false)

/-- The normalized host `_emit_device` computes for a sighting. -/
def sightHost (s : Sighting) : Str :=
  normalizeHost (if s.label.isEmpty then s.revHost else some s.label)

/-- The device key `_emit_device` computes for a sighting. -/
def sightKey (s : Sighting) : Str := deviceKeyOf (sightHost s) s.revHost s.ip

/-- The display alias `_emit_device` composes: base alias plus segment tag. -/
def sightAlias (st : DiscState) (s : Sighting) : Str :=
  (aliasFor st.aliasMap (sightKey s)).1 ++ " (".toList ++ ipTag s.ip ++ ")".toList

/-- The invariant behind C7: an ignored address is in no data structure and
in no emitted event. -/
def cleanOf (ip : Str) (st : DiscState) : Prop :=
  ip ∉ st.seen_ips ∧ (∀ kr ∈ st.registry, ip ∉ kr.2.ips)
    ∧ ∀ e ∈ st.events, eventIp e ≠ ip

/-- Whether a sighting passes the ignore-list and strict-hostname filters. -/
def sightAccepted (p : DiscParams) (s : Sighting) : Bool :=
  ! decide (s.ip ∈ p.ignored) && ! (p.strict && ! isBjornHostname (sightHost s))

/-- Whether a sighting is a genuinely new (device, address) pair: it passes
the filters and either its key is unknown or its address is new for the
key's record. -/
def isNewPair (p : DiscParams) (st : DiscState) (s : Sighting) : Bool :=
  sightAccepted p s &&
    (match findRec st.registry (sightKey s) with
     | none => true
     | some r => decide (s.ip ∉ r.ips))

/-- The router addresses `_build_ignored_ips` always inserts; gateway and
own-interface addresses would extend this list on a live host. -/
def commonIgnored : List Str :=
  ["192.168.1.1".toList, "192.168.0.1".toList, "192.168.1.254".toList,
   "10.0.0.1".toList]

/-- The `Discovery` defaults: `strict_bjorn_only=True` with the common
ignore list. -/
def defaultParams : DiscParams := ⟨true, commonIgnored⟩

/-- A LAN sighting with no reverse-DNS answer and a down webapp probe. -/
def sightOf (lbl ip : String) (t : Int) : Sighting :=
  ⟨lbl.toList, ip.toList, none, false, t⟩

/-- Three devices appear at t=0; two of them reconfirm at t=100; the sweeper
runs at t=100 (threshold 90), evicting the second device; then a fourth,
previously unseen device appears. -/
def evictScenario : List DStep :=
  [DStep.sight (sightOf "bjorn-a" "192.168.1.10" 0),
   DStep.sight (sightOf "bjorn-b" "192.168.1.11" 0),
   DStep.sight (sightOf "bjorn-c" "192.168.1.12" 0),
   DStep.sight (sightOf "bjorn-a" "192.168.1.10" 100),
   DStep.sight (sightOf "bjorn-c" "192.168.1.12" 100),
   DStep.sweep 100 90,
   DStep.sight (sightOf "bjorn-d" "192.168.1.13" 101)]

/-- The state after `evictScenario`. -/
def evictFinal : DiscState := runDisc defaultParams discInit evictScenario

/-- The first `n` canonical aliases `"Bjorn 1" … "Bjorn n"`. -/
def canonAliases (n : Nat) : List Str :=
  (List.range n).map (fun i => mkBjorn (i + 1))

/-- The alias map binding `ks` in order to the canonical aliases. -/
def canonMap (ks : List Str) : AliasMap := ks.zip (canonAliases ks.length)

/-- The device-naming convention as the specification words it: the exact
name, `-`/`_`-separated suffix variants, and local-domain forms; nothing
else. -/
def bjornNameSpec (h0 : Str) : Bool :=
  if h0.isEmpty then false
  else
    bjornNorm h0 = "bjorn".toList
      || ("bjorn-".toList).isPrefixOf (bjornNorm h0)
      || ("bjorn_".toList).isPrefixOf (bjornNorm h0)
      || (("bjorn".toList).isPrefixOf (bjornNorm h0)
          && ((".local".toList).isSuffixOf (bjornNorm h0)
              || (".home".toList).isSuffixOf (bjornNorm h0)))

/-! ### `SSHWorker.connect`

Embeds `connect` and `_resolve_key_path` from `ssh/worker.py`.  Filesystem
lookups (`os.path.isfile`, `expanduser`/`expandvars`) and the outcomes of the
two `paramiko` connect calls are supplied as an environment; the function
returns the boolean result together with the authentication attempts made and
the log events, so the control flow is fully observable. -/

/-- The fields of `SSHConfig` that `connect` reads; `""` models `None`
(Python falsiness). -/
structure SSHCfg where
  key_path : Str
  password : Str

/-- Filesystem environment for `_resolve_key_path`: path expansion, file
existence, and the home directory. -/
structure KeyEnv where
  expand : Str → Str
  isFile : Str → Bool
  home : Str

/-- Outcome of a `paramiko` `client.connect` call.  `authFail`, `sshFail`
and `fileMissing` are the exception types the key-auth `except` clause
catches; `otherFail` is any other exception (caught only by the outer
handler). -/
inductive AuthOutcome where
  | ok
  | authFail
  | sshFail
  | fileMissing
  | otherFail
  deriving DecidableEq

/-- Network environment: the outcome of key authentication with a given key
file, and of password authentication. -/
structure NetEnv where
  keyAuth : Str → AuthOutcome
  pwAuth : AuthOutcome

/-- An authentication attempt `connect` makes. -/
inductive ConnAct where
  | tryKey (path : Str)
  | tryPassword
  deriving DecidableEq

/-- A log event: message and level. -/
structure LogE where
  msg : Str
  level : Str
  deriving DecidableEq

/-- The default key file names `_resolve_key_path` probes, in order. -/
def privateKeyNames : List Str :=
  ["id_ed25519".toList, "id_rsa".toList, "id_ecdsa".toList]

/-- `SSHWorker._resolve_key_path`: the explicit configured path if it is a
file (no fallback when it is not), else the first default key file found
under `~/.ssh`. -/
def resolveKeyPath (env : KeyEnv) (cfg : SSHCfg) : Option Str :=
  if ¬ cfg.key_path.isEmpty then
    if env.isFile (env.expand cfg.key_path) then some (env.expand cfg.key_path)
    else none
  else
    (privateKeyNames.map (fun n => env.home ++ "/.ssh/".toList ++ n)).find?
      env.isFile

/-- Whether key authentication failed with an exception the fallback clause
catches. -/
def caughtKeyFailure : AuthOutcome → Bool
  | AuthOutcome.authFail => true
  | AuthOutcome.sshFail => true
  | AuthOutcome.fileMissing => true
  | _ => false

/-- The `if not connected:` password-fallback block of `connect`, entered
with the attempts and logs accumulated so far. -/
def connectFallback (net : NetEnv) (cfg : SSHCfg) (acts : List ConnAct)
    (logs : List LogE) : Bool × List ConnAct × List LogE :=
  if cfg.password.isEmpty then
    (false, acts,
      logs ++ [⟨"[SSH] No password available for fallback auth".toList,
        "error".toList⟩])
  else
    match net.pwAuth with
    | AuthOutcome.ok =>
      (true, acts ++ [ConnAct.tryPassword],
        logs ++ [⟨"[SSH] Connected via password".toList, "info".toList⟩])
    | _ =>
      (false, acts ++ [ConnAct.tryPassword],
        logs ++ [⟨"[SSH] Connection failed".toList, "error".toList⟩])

/-- The key-authentication attempt of `connect` for the resolved key `p`. -/
def connectWithKey (net : NetEnv) (cfg : SSHCfg) (p : Str) :
    Bool × List ConnAct × List LogE :=
  match net.keyAuth p with
  | AuthOutcome.ok =>
    (true, [ConnAct.tryKey p], [⟨"[SSH] Connected via key".toList, "info".toList⟩])
  | AuthOutcome.otherFail =>
    (false, [ConnAct.tryKey p],
      [⟨"[SSH] Connection failed".toList, "error".toList⟩])
  | _ =>
    connectFallback net cfg [ConnAct.tryKey p]
      [⟨"[SSH] Key auth failed, falling back to password".toList, "warning".toList⟩]

/-- `SSHWorker.connect`: try key auth first when a usable key resolves; on a
caught key failure fall back to password auth when a password is configured;
report success/failure as a boolean, never raising (the outer handler turns
any other exception into an error log and `False`). -/
def connectModel (env : KeyEnv) (net : NetEnv) (cfg : SSHCfg) :
    Bool × List ConnAct × List LogE :=
  match resolveKeyPath env cfg with
  | some p => connectWithKey net cfg p
  | none => connectFallback net cfg [] []

/-! ### Theorems -/

theorem progressEvents_append (a b : List IEvent) :
    progressEvents (a ++ b) = progressEvents a ++ progressEvents b :=
  List.filterMap_append a b _

theorem pwCount_append (a b : List IEvent) :
    pwCount (a ++ b) = pwCount a + pwCount b :=
  List.countP_append _ a b

theorem progressEvents_lineEvents (l : Str) :
    progressEvents (lineEvents l) = (lineProgress l).toList := by
  unfold lineEvents lineProgress
  split
  · rfl
  · cases h : stepSearch l <;> simp [progressEvents, h]

theorem progressEvents_chunkLineEvents (d : Str) :
    progressEvents (chunkLineEvents d) = (pySplitlines d).filterMap lineProgress := by
  unfold chunkLineEvents
  induction pySplitlines d with
  | nil => rfl
  | cons l ls ih =>
    simp only [List.flatMap_cons, List.filterMap_cons, progressEvents_append, ih,
      progressEvents_lineEvents]
    cases h : lineProgress l <;> simp [h]

theorem pwCheck_events (st : InstState) :
    (pwCheck st).events = st.events ∨
      (pwCheck st).events = st.events ++ [IEvent.pwSend] := by
  unfold pwCheck
  split
  · exact Or.inl rfl
  · split
    · exact Or.inr rfl
    · exact Or.inl rfl

theorem progressEvents_pwCheck (st : InstState) :
    progressEvents (pwCheck st).events = progressEvents st.events := by
  rcases pwCheck_events st with h | h <;> rw [h]
  rw [progressEvents_append]
  simp [progressEvents]

theorem progressEvents_instStep (st : InstState) (x : InstIn) :
    progressEvents (instStep st x).events =
      progressEvents st.events ++ instInProgress x := by
  cases x with
  | recv d =>
    show progressEvents (stepChunk st d).events = _
    unfold stepChunk
    rw [progressEvents_pwCheck]
    simp only [progressEvents_append, progressEvents_chunkLineEvents]
    rfl
  | idle =>
    show progressEvents (pwCheck st).events = _
    rw [progressEvents_pwCheck, instInProgress]
    simp

theorem progressEvents_mainFold (main : List InstIn) (st : InstState) :
    progressEvents (main.foldl instStep st).events =
      progressEvents st.events ++ main.flatMap instInProgress := by
  induction main generalizing st with
  | nil => simp
  | cons x xs ih =>
    simp only [List.foldl_cons, List.flatMap_cons, ih, progressEvents_instStep,
      List.append_assoc]

theorem progressEvents_drainFold (drain : List Str) (st : InstState) :
    progressEvents (drain.foldl drainChunk st).events = progressEvents st.events := by
  induction drain generalizing st with
  | nil => rfl
  | cons d ds ih =>
    rw [List.foldl_cons, ih]
    show progressEvents (st.events ++ _) = _
    rw [progressEvents_append]
    have : progressEvents
        ((pySplitlines d).flatMap
          (fun l => if (stripL l).isEmpty then [] else [IEvent.logLine l])) = [] := by
      induction pySplitlines d with
      | nil => rfl
      | cons l ls ih2 =>
        simp only [List.flatMap_cons, progressEvents_append, ih2]
        split <;> rfl
    rw [this, List.append_nil]

/-- C1.  In the `run_install` output-processing loop, the emitted progress
events are exactly one `(n, total)` per received line on which the
step-progress marker matches (case-insensitively), in the order the lines are
received; in particular the canned stream `"Step 3 of 8: ..."` then
`"Step 4 of 8: ..."` yields exactly `(3,8)` then `(4,8)`. -/
theorem run_install_progress_events (main : List InstIn) (drain : List Str) :
    progressEvents (runInstall main drain).events = main.flatMap instInProgress
    ∧ progressEvents
        (runInstall
          [InstIn.recv "Step 3 of 8: configuring\nStep 4 of 8: building\n".toList]
          []).events = [(3, 8), (4, 8)] := by
  constructor
  · unfold runInstall
    rw [progressEvents_drainFold, progressEvents_mainFold]
    rfl
  · rfl

theorem pwCount_lineEvents (l : Str) : pwCount (lineEvents l) = 0 := by
  unfold lineEvents
  split
  · rfl
  · cases h : stepSearch l <;> simp [pwCount, h]

theorem pwCount_chunkLineEvents (d : Str) : pwCount (chunkLineEvents d) = 0 := by
  unfold chunkLineEvents
  induction pySplitlines d with
  | nil => rfl
  | cons l ls ih =>
    simp only [List.flatMap_cons, pwCount_append, ih, pwCount_lineEvents]

theorem pwInv_pwCheck (st : InstState) (h : pwInv st) : pwInv (pwCheck st) := by
  unfold pwCheck
  split
  · exact h
  · next hns =>
    split
    · refine ⟨fun hc => by simp at hc, ?_⟩
      have h0 : pwCount st.events = 0 := h.1 (by revert hns; cases st.pw_sent <;> simp)
      show pwCount (st.events ++ [IEvent.pwSend]) ≤ 1
      rw [pwCount_append, h0]
      decide
    · exact h

theorem pwInv_instStep (st : InstState) (x : InstIn) (h : pwInv st) :
    pwInv (instStep st x) := by
  cases x with
  | recv d =>
    apply pwInv_pwCheck
    refine ⟨fun hf => ?_, ?_⟩
    · simp only [pwCount_append, pwCount_chunkLineEvents, h.1 hf]
    · simpa [pwCount_append, pwCount_chunkLineEvents] using h.2
  | idle => exact pwInv_pwCheck st h

theorem pwInv_mainFold (main : List InstIn) (st : InstState) (h : pwInv st) :
    pwInv (main.foldl instStep st) := by
  induction main generalizing st with
  | nil => exact h
  | cons x xs ih => exact ih _ (pwInv_instStep st x h)

theorem pwCount_drainFold (drain : List Str) (st : InstState) :
    pwCount (drain.foldl drainChunk st).events = pwCount st.events := by
  induction drain generalizing st with
  | nil => rfl
  | cons d ds ih =>
    rw [List.foldl_cons, ih]
    show pwCount (st.events ++ _) = _
    rw [pwCount_append]
    have : pwCount
        ((pySplitlines d).flatMap
          (fun l => if (stripL l).isEmpty then [] else [IEvent.logLine l])) = 0 := by
      induction pySplitlines d with
      | nil => rfl
      | cons l ls ih2 =>
        simp only [List.flatMap_cons, pwCount_append, ih2]
        split <;> rfl
    rw [this]
    omega

/-- C2.  The privilege password is written at most once per installation run:
(1) over any input schedule the loop emits at most one `pwSend`;
(2) from a state that has not yet sent the password, a chunk making the
prompt substring appear in the accumulated buffer triggers the send, sets the
flag and clears the buffer; (3) once the flag is set, no step ever emits
another `pwSend`; (4) a canned stream in which the prompt substring appears in
two separate chunks still produces exactly one password write. -/
theorem run_install_password_once (main : List InstIn) (drain : List Str) :
    pwCount (runInstall main drain).events ≤ 1
    ∧ (∀ (st : InstState) (data : Str), st.pw_sent = false →
        pwCount st.events = 0 → promptIn (st.buff ++ data) = true →
        (stepChunk st data).pw_sent = true ∧ (stepChunk st data).buff = []
          ∧ pwCount (stepChunk st data).events = 1)
    ∧ (∀ (st : InstState) (x : InstIn), st.pw_sent = true →
        pwCount (instStep st x).events = pwCount st.events)
    ∧ pwCount
        (runInstall
          [InstIn.recv "[sudo] password for bjorn:".toList, InstIn.idle,
           InstIn.recv "password for bjorn again:".toList]
          []).events = 1 := by
  refine ⟨?_, ?_, ?_, by rfl⟩
  · unfold runInstall
    rw [pwCount_drainFold]
    exact (pwInv_mainFold main instInit ⟨fun _ => rfl, by simp [instInit, pwCount]⟩).2
  · intro st data hf h0 hp
    have h0' : List.countP (fun e => e == IEvent.pwSend) st.events = 0 := h0
    have hc : List.countP (fun e => e == IEvent.pwSend) (chunkLineEvents data) = 0 :=
      pwCount_chunkLineEvents data
    unfold stepChunk pwCheck
    simp [hf, hp, pwCount, List.countP_append, h0', hc]
  · intro st x hs
    cases x with
    | recv d =>
      show pwCount (stepChunk st d).events = _
      have hc : List.countP (fun e => e == IEvent.pwSend) (chunkLineEvents d) = 0 :=
        pwCount_chunkLineEvents d
      unfold stepChunk pwCheck
      simp [hs, pwCount, List.countP_append, hc]
    | idle =>
      show pwCount (pwCheck st).events = _
      unfold pwCheck
      simp [hs]

/-- Concrete instantiation of `run_install_password_once` discharging its
hypotheses: from the initial state, a chunk containing the sudo prompt
triggers the send, sets the flag and clears the buffer. -/
theorem run_install_password_once_witness :
    (stepChunk instInit "[sudo] password:".toList).pw_sent = true
    ∧ (stepChunk instInit "[sudo] password:".toList).buff = []
    ∧ pwCount (stepChunk instInit "[sudo] password:".toList).events = 1 :=
  (run_install_password_once [] []).2.1 instInit "[sudo] password:".toList
    rfl rfl (by rfl)

theorem nextFreeGo_ge (fuel n : Nat) (used : List Int) : n ≤ nextFreeGo fuel n used := by
  induction fuel generalizing n with
  | zero => exact Nat.le_refl n
  | succ f ih =>
    unfold nextFreeGo
    split
    · exact Nat.le_trans (Nat.le_succ n) (ih (n + 1))
    · exact Nat.le_refl n

theorem nextFreeGo_below (fuel n : Nat) (used : List Int) :
    ∀ m : Nat, n ≤ m → m < nextFreeGo fuel n used → (m : Int) ∈ used := by
  induction fuel generalizing n with
  | zero => intro m h1 h2; unfold nextFreeGo at h2; omega
  | succ f ih =>
    intro m h1 h2
    revert h2
    unfold nextFreeGo
    split
    · next hmem =>
      intro h2
      rcases Nat.eq_or_lt_of_le h1 with he | hl
      · exact he ▸ hmem
      · exact ih (n + 1) m hl h2
    · intro h2; omega

theorem filter_length_succ (l : List Int) (n : Nat) (hd : l.Nodup)
    (hm : (n : Int) ∈ l) :
    (l.filter (fun x => decide ((n : Int) + 1 ≤ x))).length <
      (l.filter (fun x => decide ((n : Int) ≤ x))).length := by
  induction l with
  | nil => simp at hm
  | cons a t ih =>
    rw [List.nodup_cons] at hd
    rcases List.mem_cons.mp hm with ha | ht
    · have e1 : List.filter (fun x => decide ((n : Int) + 1 ≤ x)) (a :: t) =
          List.filter (fun x => decide ((n : Int) + 1 ≤ x)) t := by
        rw [List.filter_cons, if_neg (by rw [← ha]; simp)]
      have e2 : List.filter (fun x => decide ((n : Int) ≤ x)) (a :: t) =
          a :: List.filter (fun x => decide ((n : Int) ≤ x)) t := by
        rw [List.filter_cons, if_pos (by rw [← ha]; simp)]
      rw [e1, e2, List.length_cons]
      have hmono : (t.filter (fun x => decide ((n : Int) + 1 ≤ x))).length ≤
          (t.filter (fun x => decide ((n : Int) ≤ x))).length := by
        rw [← List.countP_eq_length_filter, ← List.countP_eq_length_filter]
        exact List.countP_mono_left (fun x _ hx => by
          simp only [decide_eq_true_eq] at hx ⊢; omega)
      omega
    · have hne : a ≠ (n : Int) := fun he => hd.1 (he ▸ ht)
      have ihx := ih hd.2 ht
      by_cases hle : (n : Int) ≤ a
      · have hle2 : (n : Int) + 1 ≤ a := by
          rcases lt_or_eq_of_le hle with h | h
          · omega
          · exact absurd h.symm hne
        have e1 : List.filter (fun x => decide ((n : Int) + 1 ≤ x)) (a :: t) =
            a :: List.filter (fun x => decide ((n : Int) + 1 ≤ x)) t := by
          rw [List.filter_cons, if_pos (by simpa using hle2)]
        have e2 : List.filter (fun x => decide ((n : Int) ≤ x)) (a :: t) =
            a :: List.filter (fun x => decide ((n : Int) ≤ x)) t := by
          rw [List.filter_cons, if_pos (by simpa using hle)]
        rw [e1, e2, List.length_cons, List.length_cons]
        omega
      · have hle2 : ¬ ((n : Int) + 1 ≤ a) := by omega
        have e1 : List.filter (fun x => decide ((n : Int) + 1 ≤ x)) (a :: t) =
            List.filter (fun x => decide ((n : Int) + 1 ≤ x)) t := by
          rw [List.filter_cons, if_neg (by simpa using hle2)]
        have e2 : List.filter (fun x => decide ((n : Int) ≤ x)) (a :: t) =
            List.filter (fun x => decide ((n : Int) ≤ x)) t := by
          rw [List.filter_cons, if_neg (by simpa using hle)]
        rw [e1, e2]
        exact ihx

theorem nextFreeGo_not_mem (fuel n : Nat) (used : List Int) (hd : used.Nodup)
    (hf : (used.filter (fun x => decide ((n : Int) ≤ x))).length < fuel) :
    ((nextFreeGo fuel n used : Nat) : Int) ∉ used := by
  induction fuel generalizing n with
  | zero => omega
  | succ f ih =>
    unfold nextFreeGo
    split
    · next hmem =>
      apply ih (n + 1)
      have := filter_length_succ used n hd hmem
      have hcast : ((n + 1 : Nat) : Int) = (n : Int) + 1 := by omega
      rw [hcast]
      omega
    · next hmem => exact hmem

theorem usedNums_nodup_aux (vals : List Str) (s : List Int) (hs : s.Nodup) :
    (vals.foldl
      (fun s a =>
        match parseAliasNum a with
        | some z => addUsed s z
        | none => s) s).Nodup := by
  induction vals generalizing s with
  | nil => exact hs
  | cons a t ih =>
    rw [List.foldl_cons]
    apply ih
    show (match parseAliasNum a with
          | some z => addUsed s z
          | none => s).Nodup
    cases hp : parseAliasNum a with
    | none => exact hs
    | some z =>
      show (addUsed s z).Nodup
      unfold addUsed
      split
      · exact hs
      · next hz =>
        rw [List.nodup_append]
        exact ⟨hs, List.nodup_singleton z, by simpa using hz⟩

theorem usedNums_nodup (vals : List Str) : (usedNums vals).Nodup :=
  usedNums_nodup_aux vals [] List.nodup_nil

theorem mem_addUsed (s : List Int) (x z : Int) :
    z ∈ addUsed s x ↔ z ∈ s ∨ z = x := by
  unfold addUsed
  split
  · next hx =>
    constructor
    · exact fun h => Or.inl h
    · rintro (h | rfl)
      · exact h
      · exact hx
  · simp

theorem mem_usedNums_aux (vals : List Str) (s : List Int) (z : Int) :
    z ∈ vals.foldl
      (fun s a =>
        match parseAliasNum a with
        | some z => addUsed s z
        | none => s) s ↔ z ∈ s ∨ ∃ a ∈ vals, parseAliasNum a = some z := by
  induction vals generalizing s with
  | nil => simp
  | cons a t ih =>
    rw [List.foldl_cons, ih]
    cases hp : parseAliasNum a with
    | none =>
      simp only [List.mem_cons]
      constructor
      · rintro (h | ⟨b, hb, he⟩)
        · exact Or.inl h
        · exact Or.inr ⟨b, Or.inr hb, he⟩
      · rintro (h | ⟨b, hb | hb, he⟩)
        · exact Or.inl h
        · exact absurd (hb ▸ he) (by rw [hp]; simp)
        · exact Or.inr ⟨b, hb, he⟩
    | some w =>
      rw [mem_addUsed]
      constructor
      · rintro ((h | rfl) | ⟨b, hb, he⟩)
        · exact Or.inl h
        · exact Or.inr ⟨a, List.mem_cons_self a t, hp⟩
        · exact Or.inr ⟨b, List.mem_cons_of_mem a hb, he⟩
      · rintro (h | ⟨b, hb, he⟩)
        · exact Or.inl (Or.inl h)
        · rcases List.mem_cons.mp hb with rfl | hb
          · rw [hp] at he
            exact Or.inl (Or.inr (Option.some_inj.mp he).symm)
          · exact Or.inr ⟨b, hb, he⟩

theorem mem_usedNums (vals : List Str) (z : Int) :
    z ∈ usedNums vals ↔ ∃ a ∈ vals, parseAliasNum a = some z := by
  unfold usedNums
  rw [mem_usedNums_aux]
  simp

theorem digit_toNat_bounds (c : Char) (h : c.isDigit = true) :
    48 ≤ c.toNat ∧ c.toNat ≤ 57 := by
  simp [Char.isDigit] at h
  exact ⟨h.1, h.2⟩

theorem digitChar_isDigit (k : Nat) (h : k < 10) :
    (Char.ofNat (48 + k)).isDigit = true := by
  interval_cases k <;> decide

theorem digitVal_digitChar (k : Nat) (h : k < 10) :
    digitVal (Char.ofNat (48 + k)) = k := by
  interval_cases k <;> decide

theorem digit_not_WS (c : Char) (h : c.isDigit = true) : isWS c = false := by
  obtain ⟨h1, h2⟩ := digit_toNat_bounds c h
  unfold isWS
  have e1 : (c == ' ') = false := by
    rw [beq_eq_false_iff_ne]
    intro he; rw [he] at h1; exact absurd h1 (by decide)
  have e2 : (c == '\t') = false := by
    rw [beq_eq_false_iff_ne]
    intro he; rw [he] at h1; exact absurd h1 (by decide)
  have e3 : (c == '\n') = false := by
    rw [beq_eq_false_iff_ne]
    intro he; rw [he] at h1; exact absurd h1 (by decide)
  have e4 : (c == '\r') = false := by
    rw [beq_eq_false_iff_ne]
    intro he; rw [he] at h1; exact absurd h1 (by decide)
  have e5 : (c.toNat == 11) = false := by rw [beq_eq_false_iff_ne]; omega
  have e6 : (c.toNat == 12) = false := by rw [beq_eq_false_iff_ne]; omega
  rw [e1, e2, e3, e4, e5, e6]
  rfl

theorem digit_ne_char (c : Char) (h : c.isDigit = true) (d : Char)
    (hd : d.toNat < 48 ∨ 57 < d.toNat) : (c == d) = false := by
  obtain ⟨h1, h2⟩ := digit_toNat_bounds c h
  rw [beq_eq_false_iff_ne]
  intro he
  rw [he] at h1 h2
  omega

theorem natStrAux_props (fuel : Nat) :
    ∀ n : Nat, n < fuel →
      (∀ c ∈ natStrAux fuel n, c.isDigit = true) ∧ natStrAux fuel n ≠ [] ∧
        ∀ acc : Nat, (natStrAux fuel n).foldl (fun a c => a * 10 + digitVal c) acc
          = acc * 10 ^ (natStrAux fuel n).length + n := by
  induction fuel with
  | zero => intro n hn; omega
  | succ fuel ih =>
    intro n hn
    by_cases h : n < 10
    · rw [show natStrAux (fuel + 1) n = [Char.ofNat (48 + n)] from by
        simp [natStrAux, h]]
      refine ⟨?_, by simp, ?_⟩
      · intro c hc
        rw [List.mem_singleton] at hc
        rw [hc]
        exact digitChar_isDigit n h
      · intro acc
        simp only [List.foldl_cons, List.foldl_nil, List.length_singleton, pow_one,
          digitVal_digitChar n h]
    · have hdiv : n / 10 < n := Nat.div_lt_self (by omega) (by omega)
      have hlt : n / 10 < fuel := by omega
      rw [show natStrAux (fuel + 1) n
          = natStrAux fuel (n / 10) ++ [Char.ofNat (48 + n % 10)] from by
        simp [natStrAux, h]]
      obtain ⟨ihd, ihn, ihv⟩ := ih (n / 10) hlt
      have hm : n % 10 < 10 := Nat.mod_lt _ (by omega)
      refine ⟨?_, by simp, ?_⟩
      · intro c hc
        rcases List.mem_append.mp hc with hc | hc
        · exact ihd c hc
        · rw [List.mem_singleton] at hc
          rw [hc]
          exact digitChar_isDigit _ hm
      · intro acc
        rw [List.foldl_append, ihv acc, List.length_append, List.length_singleton]
        simp only [List.foldl_cons, List.foldl_nil, digitVal_digitChar _ hm]
        have hp : 10 ^ ((natStrAux fuel (n / 10)).length + 1)
            = 10 ^ (natStrAux fuel (n / 10)).length * 10 := pow_succ 10 _
        rw [hp]
        have hdm : n / 10 * 10 + n % 10 = n := by omega
        calc (acc * 10 ^ (natStrAux fuel (n / 10)).length + n / 10) * 10 + n % 10
            = acc * (10 ^ (natStrAux fuel (n / 10)).length * 10)
                + (n / 10 * 10 + n % 10) := by ring
          _ = acc * (10 ^ (natStrAux fuel (n / 10)).length * 10) + n := by rw [hdm]

theorem natStr_props (n : Nat) :
    (∀ c ∈ natStr n, c.isDigit = true) ∧ natStr n ≠ [] ∧
      ∀ acc : Nat, (natStr n).foldl (fun a c => a * 10 + digitVal c) acc
        = acc * 10 ^ (natStr n).length + n :=
  natStrAux_props (n + 1) n (Nat.lt_succ_self n)

theorem intDigitsGo_all_digits (l : Str) (acc : Nat)
    (h : ∀ c ∈ l, c.isDigit = true) :
    intDigitsGo l acc = some (l.foldl (fun a c => a * 10 + digitVal c) acc) := by
  induction l generalizing acc with
  | nil => rfl
  | cons c rest ih =>
    have hc := h c (List.mem_cons_self c rest)
    have hne : (c == '_') = false := digit_ne_char c hc '_' (by right; decide)
    rw [List.foldl_cons]
    unfold intDigitsGo
    simp only [hne, hc, Bool.false_eq_true, if_false, if_true]
    exact ih _ (fun d hd => h d (List.mem_cons_of_mem c hd))

theorem pyIntOfTok_natStr (n : Nat) : pyIntOfTok (natStr n) = some (n : Int) := by
  obtain ⟨hd, hn, hv⟩ := natStr_props n
  rcases he : natStr n with _ | ⟨c, rest⟩
  · exact absurd he hn
  · have hc : c.isDigit = true := hd c (he ▸ List.mem_cons_self c rest)
    have hrest : ∀ d ∈ rest, d.isDigit = true :=
      fun d hdm => hd d (he ▸ List.mem_cons_of_mem c hdm)
    show (if c == '-' then _ else if c == '+' then _
      else (startDigits (c :: rest)).map (fun k => (k : Int))) = _
    rw [digit_ne_char c hc '-' (by left; decide),
        digit_ne_char c hc '+' (by left; decide)]
    simp only [Bool.false_eq_true, if_false]
    show (if c.isDigit then intDigitsGo rest (digitVal c) else none).map
      (fun k => (k : Int)) = _
    rw [hc]
    simp only [if_true]
    rw [intDigitsGo_all_digits rest (digitVal c) hrest]
    have : (c :: rest).foldl (fun a d => a * 10 + digitVal d) 0
        = rest.foldl (fun a d => a * 10 + digitVal d) (digitVal c) := by
      rw [List.foldl_cons]
      norm_num
    have hv0 := hv 0
    rw [he] at hv0
    rw [this] at hv0
    rw [hv0]
    simp

theorem lowerL_append (a b : Str) : lowerL (a ++ b) = lowerL a ++ lowerL b :=
  List.map_append _ a b

theorem splitWSGo_noWS (t : Str) (acc : Str) (h : ∀ c ∈ t, isWS c = false)
    (ht : t ≠ []) : splitWSGo t acc = [acc.reverse ++ t] := by
  induction t generalizing acc with
  | nil => exact absurd rfl ht
  | cons c rest ih =>
    show (if isWS c then _ else splitWSGo rest (c :: acc)) = _
    rw [h c (List.mem_cons_self c rest)]
    simp only [Bool.false_eq_true, if_false]
    rcases rest with _ | ⟨d, rest2⟩
    · show (if (c :: acc).isEmpty then ([] : List Str)
        else [(c :: acc).reverse]) = _
      simp
    · rw [ih (c :: acc) (fun e hme => h e (List.mem_cons_of_mem c hme)) (by simp)]
      simp

theorem pySplitWS_mkBjorn (n : Nat) :
    pySplitWS (mkBjorn n) = ["Bjorn".toList, natStr n] := by
  obtain ⟨hd, hn, _⟩ := natStr_props n
  show splitWSGo ('B' :: 'j' :: 'o' :: 'r' :: 'n' :: ' ' :: natStr n) [] = _
  show splitWSGo ('j' :: 'o' :: 'r' :: 'n' :: ' ' :: natStr n) ['B'] = _
  show splitWSGo ('o' :: 'r' :: 'n' :: ' ' :: natStr n) ['j', 'B'] = _
  show splitWSGo ('r' :: 'n' :: ' ' :: natStr n) ['o', 'j', 'B'] = _
  show splitWSGo ('n' :: ' ' :: natStr n) ['r', 'o', 'j', 'B'] = _
  show splitWSGo (' ' :: natStr n) ['n', 'r', 'o', 'j', 'B'] = _
  show (if isWS ' ' then
      if (['n', 'r', 'o', 'j', 'B'] : Str).isEmpty then splitWSGo (natStr n) []
      else ['n', 'r', 'o', 'j', 'B'].reverse :: splitWSGo (natStr n) []
    else splitWSGo (natStr n) (' ' :: ['n', 'r', 'o', 'j', 'B'])) = _
  rw [show isWS ' ' = true from rfl]
  simp only [if_true, List.isEmpty_cons, Bool.false_eq_true, if_false]
  rw [splitWSGo_noWS (natStr n) [] (fun c hc => digit_not_WS c (hd c hc)) hn]
  rfl

theorem parseAliasNum_mkBjorn (n : Nat) :
    parseAliasNum (mkBjorn n) = some (n : Int) := by
  unfold parseAliasNum
  have hpre : (("bjorn ".toList).isPrefixOf (lowerL (mkBjorn n))) = true := by
    unfold mkBjorn
    rw [lowerL_append, show lowerL ("Bjorn ".toList) = "bjorn ".toList from by decide,
      List.isPrefixOf_iff_prefix]
    exact List.prefix_append _ _
  rw [hpre]
  simp only [if_true]
  rw [pySplitWS_mkBjorn n]
  show pyIntOfTok (natStr n) = some (n : Int)
  exact pyIntOfTok_natStr n

/-- The result of `_next_index` on the values of `m`: it is a positive index
whose value is not among the used Bjorn indices, and every positive index
below it is used. -/
theorem nextIndex_spec (m : AliasMap) :
    1 ≤ nextIndex m
    ∧ ((nextIndex m : Nat) : Int) ∉ usedNums (m.map Prod.snd)
    ∧ (∀ k : Nat, 1 ≤ k → k < nextIndex m → (k : Int) ∈ usedNums (m.map Prod.snd)) := by
  refine ⟨nextFreeGo_ge _ 1 _, ?_, ?_⟩
  · apply nextFreeGo_not_mem _ 1 _ (usedNums_nodup _)
    have := List.length_filter_le (fun x => decide (((1 : Nat) : Int) ≤ x))
      (usedNums (m.map Prod.snd))
    omega
  · intro k h1 h2
    exact nextFreeGo_below _ 1 _ k h1 h2

/-- The freshly allocated alias string is not already a value of the map:
its numeric suffix is the first unused index. -/
theorem mkBjorn_nextIndex_not_mem (m : AliasMap) :
    mkBjorn (nextIndex m) ∉ m.map Prod.snd := by
  intro hmem
  have hparse := parseAliasNum_mkBjorn (nextIndex m)
  have : ((nextIndex m : Nat) : Int) ∈ usedNums (m.map Prod.snd) :=
    (mem_usedNums _ _).mpr ⟨mkBjorn (nextIndex m), hmem, hparse⟩
  exact (nextIndex_spec m).2.1 this

theorem lookupAlias_none (m : AliasMap) (key : Str)
    (h : lookupAlias m key = none) : ∀ p ∈ m, p.1 ≠ key := by
  intro p hp
  unfold lookupAlias at h
  rw [Option.map_eq_none'] at h
  have := List.find?_eq_none.mp h p hp
  simpa using this

theorem lookupAlias_self_after (m : AliasMap) (key : Str) :
    lookupAlias ((aliasFor m key).2) key = some (aliasFor m key).1 := by
  unfold aliasFor
  cases hl : lookupAlias m key with
  | some a => exact hl
  | none =>
    show lookupAlias (m ++ [(key, mkBjorn (nextIndex m))]) key
      = some (mkBjorn (nextIndex m))
    unfold lookupAlias at hl ⊢
    rw [Option.map_eq_none'] at hl
    rw [List.find?_append, hl]
    simp

theorem aliasFor_preserves (m : AliasMap) (key : Str)
    (hk : (m.map Prod.fst).Nodup) (hv : (m.map Prod.snd).Nodup) :
    ((aliasFor m key).2.map Prod.fst).Nodup
    ∧ ((aliasFor m key).2.map Prod.snd).Nodup
    ∧ ∀ p ∈ m, p ∈ (aliasFor m key).2 := by
  unfold aliasFor
  cases hl : lookupAlias m key with
  | some a => exact ⟨hk, hv, fun p hp => hp⟩
  | none =>
    have hkey : key ∉ m.map Prod.fst := by
      intro hmem
      rcases List.mem_map.mp hmem with ⟨p, hp, he⟩
      exact lookupAlias_none m key hl p hp he
    refine ⟨?_, ?_, fun p hp => List.mem_append_left _ hp⟩
    · rw [List.map_append, List.nodup_append]
      exact ⟨hk, by simp, by simpa using fun h => hkey h⟩
    · rw [List.map_append, List.nodup_append]
      exact ⟨hv, by simp, by simpa using fun h => mkBjorn_nextIndex_not_mem m h⟩

/-- C8.  The alias map stays injective under any sequence of `alias_for`
calls: keys stay duplicate-free, values stay duplicate-free, existing
bindings are never rebound or removed, and any two entries sharing an alias
share the key. -/
theorem alias_for_injective (m : AliasMap) (keys : List Str)
    (hk : (m.map Prod.fst).Nodup) (hv : (m.map Prod.snd).Nodup) :
    ((allocAll m keys).map Prod.fst).Nodup
    ∧ ((allocAll m keys).map Prod.snd).Nodup
    ∧ (∀ p ∈ m, p ∈ allocAll m keys)
    ∧ (∀ p ∈ allocAll m keys, ∀ q ∈ allocAll m keys, p.2 = q.2 → p.1 = q.1) := by
  induction keys generalizing m with
  | nil =>
    exact ⟨hk, hv, fun p hp => hp,
      fun p hp q hq he => congrArg Prod.fst (List.inj_on_of_nodup_map hv hp hq he)⟩
  | cons k ks ih =>
    obtain ⟨h1, h2, h3⟩ := aliasFor_preserves m k hk hv
    obtain ⟨g1, g2, g3, g4⟩ := ih (aliasFor m k).2 h1 h2
    exact ⟨g1, g2, fun p hp => g3 p (h3 p hp), g4⟩

/-- Concrete instantiation of `alias_for_injective` discharging its
hypotheses on a fresh map and two keys. -/
theorem alias_for_injective_witness :
    ((allocAll [] ["x".toList, "y".toList]).map Prod.snd).Nodup :=
  (alias_for_injective [] ["x".toList, "y".toList] (by decide) (by decide)).2.1

/-- C10.  `_next_index` is total on every map contents (malformed aliases
are skipped, never raising) and returns the lowest positive integer not used
as the numeric suffix of a well-formed `"Bjorn <int>"` alias; on the
malformed example map only `"Bjorn 1"` counts, so the next index is 2 and
the next allocation yields `"Bjorn 2"`. -/
theorem next_index_skips_malformed (m : AliasMap) :
    1 ≤ nextIndex m
    ∧ ((nextIndex m : Nat) : Int) ∉ usedNums (m.map Prod.snd)
    ∧ (∀ k : Nat, 1 ≤ k → k < nextIndex m → (k : Int) ∈ usedNums (m.map Prod.snd))
    ∧ usedNums (malformedMap.map Prod.snd) = [1]
    ∧ nextIndex malformedMap = 2
    ∧ (aliasFor malformedMap "d".toList).1 = "Bjorn 2".toList := by
  obtain ⟨s1, s2, s3⟩ := nextIndex_spec m
  exact ⟨s1, s2, s3, by decide, by decide, by decide⟩

/-- Concrete instantiation of `next_index_skips_malformed` discharging its
hypotheses: on the malformed example map, index 1 is used. -/
theorem next_index_skips_malformed_witness :
    ((1 : Nat) : Int) ∈ usedNums (malformedMap.map Prod.snd) :=
  (next_index_skips_malformed malformedMap).2.2.1 1 (Nat.le_refl 1)
    (by rw [(next_index_skips_malformed malformedMap).2.2.2.2.1]; omega)

/-- `_emit_device` written without the intermediate lets, for case analysis. -/
theorem emitDevice_eq (p : DiscParams) (st : DiscState) (s : Sighting) :
    emitDevice p st s =
      if s.ip ∈ p.ignored then st
      else if p.strict && ! isBjornHostname (sightHost s) then
        { st with seen_ips := addSeen st.seen_ips s.ip }
      else
        { seen_ips := addSeen st.seen_ips s.ip,
          registry := (registerSight st.registry (sightKey s)
            (aliasFor st.aliasMap (sightKey s)).1 s.ip s.now).1,
          aliasMap := (aliasFor st.aliasMap (sightKey s)).2,
          events := st.events ++
            (if (registerSight st.registry (sightKey s)
                  (aliasFor st.aliasMap (sightKey s)).1 s.ip s.now).2.1
                || (registerSight st.registry (sightKey s)
                  (aliasFor st.aliasMap (sightKey s)).1 s.ip s.now).2.2
             then [DEvent.deviceFound (sightAlias st s) s.ip s.probe8000]
             else []) } := rfl

theorem findRec_cons (q : Str × DevRec) (t : List (Str × DevRec)) (key : Str) :
    findRec (q :: t) key = if q.1 == key then some q.2 else findRec t key := by
  unfold findRec
  rw [List.find?_cons]
  cases hb : q.1 == key <;> simp

theorem findRec_mem (reg : List (Str × DevRec)) (key : Str) (r : DevRec)
    (h : findRec reg key = some r) : ∃ q ∈ reg, q.1 = key ∧ q.2 = r := by
  unfold findRec at h
  rcases hfo : List.find? (fun q => q.1 == key) reg with _ | q
  · rw [hfo] at h
    simp at h
  · rw [hfo] at h
    refine ⟨q, List.mem_of_find?_eq_some hfo, ?_, by simpa using h⟩
    have := List.find?_some hfo
    simpa using this

theorem findRec_filter_of_nodup (reg : List (Str × DevRec)) (key : Str)
    (r : DevRec) (q : Str × DevRec → Bool)
    (hnd : (reg.map Prod.fst).Nodup) (h : findRec reg key = some r) :
    findRec (reg.filter q) key = if q (key, r) then some r else none := by
  induction reg with
  | nil => simp [findRec] at h
  | cons p t ih =>
    rw [List.map_cons, List.nodup_cons] at hnd
    rw [findRec_cons] at h
    by_cases hk : (p.1 == key) = true
    · rw [if_pos hk] at h
      have hr : p.2 = r := by simpa using h
      have hk2 : p.1 = key := by simpa using hk
      have hpk : p = (key, r) := by
        rcases p with ⟨p1, p2⟩
        simp only at hk2 hr
        rw [hk2, hr]
      have htn : findRec (t.filter q) key = none := by
        unfold findRec
        rw [Option.map_eq_none']
        apply List.find?_eq_none.mpr
        intro x hx hbeq
        have hx2 : x ∈ t := List.mem_of_mem_filter hx
        have hxf : x.1 ∈ t.map Prod.fst := List.mem_map_of_mem Prod.fst hx2
        apply hnd.1
        rw [hk2, ← show x.1 = key from by simpa using hbeq]
        exact hxf
      rw [List.filter_cons]
      by_cases hq : q p = true
      · rw [if_pos hq, findRec_cons, if_pos hk]
        rw [hpk] at hq
        rw [if_pos hq, hr]
      · rw [if_neg hq, htn]
        rw [hpk] at hq
        rw [if_neg hq]
    · rw [if_neg hk] at h
      have ihx := ih hnd.2 h
      rw [List.filter_cons]
      by_cases hq : q p = true
      · rw [if_pos hq, findRec_cons, if_neg hk]
        exact ihx
      · rw [if_neg hq]
        exact ihx

/-- C4.  One sweeper pass emits exactly the `device_gone` events of the
stale records — one per recorded address of each stale device, in registry
order — and removes exactly the stale records (stale keys vanish, fresh
records are untouched); a second pass with the same clock adds nothing. -/
theorem sweep_evicts_stale (st : DiscState) (now timeout : Int)
    (hnd : (st.registry.map Prod.fst).Nodup) :
    ((sweepOnce st now timeout).events = st.events ++
        (st.registry.filter (fun kr => decide (now - kr.2.last_seen > timeout))).flatMap
          (fun kr => kr.2.ips.map DEvent.deviceGone))
    ∧ (∀ key r, findRec st.registry key = some r → now - r.last_seen > timeout →
        findRec (sweepOnce st now timeout).registry key = none)
    ∧ (∀ key r, findRec st.registry key = some r → ¬ (now - r.last_seen > timeout) →
        findRec (sweepOnce st now timeout).registry key = some r)
    ∧ (sweepOnce (sweepOnce st now timeout) now timeout).events
        = (sweepOnce st now timeout).events := by
  refine ⟨rfl, ?_, ?_, ?_⟩
  · intro key r hf hs
    have h2 := findRec_filter_of_nodup st.registry key r
      (fun kr => ! decide (now - kr.2.last_seen > timeout)) hnd hf
    show findRec (st.registry.filter
      (fun kr => ! decide (now - kr.2.last_seen > timeout))) key = none
    rw [h2]
    simp [hs]
  · intro key r hf hs
    have h2 := findRec_filter_of_nodup st.registry key r
      (fun kr => ! decide (now - kr.2.last_seen > timeout)) hnd hf
    show findRec (st.registry.filter
      (fun kr => ! decide (now - kr.2.last_seen > timeout))) key = some r
    rw [h2]
    simp [hs]
  · show (sweepOnce st now timeout).events ++ _ = (sweepOnce st now timeout).events
    have : (sweepOnce st now timeout).registry.filter
        (fun kr => decide (now - kr.2.last_seen > timeout)) = [] := by
      show (st.registry.filter _).filter _ = []
      rw [List.filter_filter]
      apply List.filter_eq_nil_iff.mpr
      intro kr _
      by_cases hs : now - kr.2.last_seen > timeout <;> simp [hs]
    rw [this]
    simp

/-- Concrete instantiation of `sweep_evicts_stale` discharging its
hypotheses: a stale singleton registry is emptied by one sweep. -/
theorem sweep_evicts_stale_witness :
    findRec (sweepOnce ⟨[], [("k".toList, ⟨"Bjorn 1".toList, ["10.0.0.5".toList], 0⟩)], [], []⟩
        100 90).registry "k".toList = none :=
  (sweep_evicts_stale
      ⟨[], [("k".toList, ⟨"Bjorn 1".toList, ["10.0.0.5".toList], 0⟩)], [], []⟩
      100 90 (by decide)).2.1 "k".toList ⟨"Bjorn 1".toList, ["10.0.0.5".toList], 0⟩
    (by decide) (by decide)

theorem mem_replaceRec (reg : List (Str × DevRec)) (key : Str) (r : DevRec)
    (q : Str × DevRec) (hq : q ∈ replaceRec reg key r) :
    q = (key, r) ∨ q ∈ reg := by
  unfold replaceRec at hq
  rcases List.mem_map.mp hq with ⟨p, hp, he⟩
  by_cases hk : (p.1 == key) = true
  · rw [if_pos hk] at he
    exact Or.inl he.symm
  · rw [if_neg hk] at he
    exact Or.inr (he ▸ hp)

theorem registerSight_none (reg : List (Str × DevRec)) (key base ip0 : Str)
    (now : Int) (h : findRec reg key = none) :
    registerSight reg key base ip0 now
      = (reg ++ [(key, ⟨base, [ip0], now⟩)], true, true) := by
  unfold registerSight
  rw [h]

theorem registerSight_some_known (reg : List (Str × DevRec)) (key base ip0 : Str)
    (now : Int) (r : DevRec) (h : findRec reg key = some r) (hm : ip0 ∈ r.ips) :
    registerSight reg key base ip0 now
      = (replaceRec reg key { r with last_seen := now }, false, false) := by
  unfold registerSight
  rw [h]
  show (if ip0 ∈ r.ips then _ else _) = _
  rw [if_pos hm]

theorem registerSight_some_new (reg : List (Str × DevRec)) (key base ip0 : Str)
    (now : Int) (r : DevRec) (h : findRec reg key = some r) (hm : ip0 ∉ r.ips) :
    registerSight reg key base ip0 now
      = (replaceRec reg key { r with ips := r.ips ++ [ip0], last_seen := now },
          false, true) := by
  unfold registerSight
  rw [h]
  show (if ip0 ∈ r.ips then _ else _) = _
  rw [if_neg hm]

theorem registerSight_clean (reg : List (Str × DevRec)) (key base ip0 : Str)
    (now : Int) (ip : Str) (hne : ip0 ≠ ip)
    (h2 : ∀ kr ∈ reg, ip ∉ kr.2.ips) :
    ∀ kr ∈ (registerSight reg key base ip0 now).1, ip ∉ kr.2.ips := by
  intro kr hkr
  rcases hfind : findRec reg key with _ | r0
  · rw [registerSight_none reg key base ip0 now hfind] at hkr
    rcases List.mem_append.mp hkr with hm | hm
    · exact h2 kr hm
    · rw [List.mem_singleton] at hm
      rw [hm]
      show ip ∉ [ip0]
      intro hmem
      rw [List.mem_singleton] at hmem
      exact hne hmem.symm
  · have hr0 : ip ∉ r0.ips := by
      rcases findRec_mem reg key r0 hfind with ⟨q, hq, _, he⟩
      exact he ▸ h2 q hq
    by_cases hm0 : ip0 ∈ r0.ips
    · rw [registerSight_some_known reg key base ip0 now r0 hfind hm0] at hkr
      rcases mem_replaceRec _ _ _ kr hkr with he | hm
      · rw [he]
        exact hr0
      · exact h2 kr hm
    · rw [registerSight_some_new reg key base ip0 now r0 hfind hm0] at hkr
      rcases mem_replaceRec _ _ _ kr hkr with he | hm
      · rw [he]
        show ip ∉ r0.ips ++ [ip0]
        intro hmem
        rcases List.mem_append.mp hmem with hm | hm
        · exact hr0 hm
        · rw [List.mem_singleton] at hm
          exact hne hm.symm
      · exact h2 kr hm

theorem cleanOf_emitDevice (p : DiscParams) (st : DiscState) (s : Sighting)
    (ip : Str) (hip : ip ∈ p.ignored) (hc : cleanOf ip st) :
    cleanOf ip (emitDevice p st s) := by
  obtain ⟨h1, h2, h3⟩ := hc
  rw [emitDevice_eq]
  by_cases hi : s.ip ∈ p.ignored
  · rw [if_pos hi]
    exact ⟨h1, h2, h3⟩
  · rw [if_neg hi]
    have hne : s.ip ≠ ip := fun he => hi (he ▸ hip)
    have hseen : ip ∉ addSeen st.seen_ips s.ip := by
      unfold addSeen
      split
      · exact h1
      · intro hm
        rcases List.mem_append.mp hm with hm | hm
        · exact h1 hm
        · rw [List.mem_singleton] at hm
          exact hne hm.symm
    by_cases hstr : (p.strict && ! isBjornHostname (sightHost s)) = true
    · rw [if_pos hstr]
      exact ⟨hseen, h2, h3⟩
    · rw [if_neg hstr]
      refine ⟨hseen, ?_, ?_⟩
      · exact registerSight_clean st.registry (sightKey s)
          (aliasFor st.aliasMap (sightKey s)).1 s.ip s.now ip hne h2
      · intro e he
        rcases List.mem_append.mp he with hm | hm
        · exact h3 e hm
        · split at hm
          · rw [List.mem_singleton] at hm
            rw [hm]
            exact hne
          · simp at hm

theorem cleanOf_sweepOnce (st : DiscState) (now timeout : Int) (ip : Str)
    (hc : cleanOf ip st) : cleanOf ip (sweepOnce st now timeout) := by
  obtain ⟨h1, h2, h3⟩ := hc
  refine ⟨h1, ?_, ?_⟩
  · intro kr hkr
    exact h2 kr (List.mem_of_mem_filter hkr)
  · intro e he
    rcases List.mem_append.mp he with hm | hm
    · exact h3 e hm
    · rcases List.mem_flatMap.mp hm with ⟨kr, hkr, hme⟩
      rcases List.mem_map.mp hme with ⟨ip2, hip2, he2⟩
      rw [← he2]
      intro hcontra
      exact h2 kr (List.mem_of_mem_filter hkr) (hcontra ▸ hip2)

theorem cleanOf_pollOnce (st : DiscState) (probe : Str → Bool) (ip : Str)
    (hc : cleanOf ip st) : cleanOf ip (pollOnce st probe) := by
  obtain ⟨h1, h2, h3⟩ := hc
  refine ⟨h1, h2, ?_⟩
  intro e he
  rcases List.mem_append.mp he with hm | hm
  · exact h3 e hm
  · rcases List.mem_map.mp hm with ⟨ip2, hip2, he2⟩
    rw [← he2]
    intro hcontra
    exact h1 (hcontra ▸ hip2)

theorem cleanOf_runDisc (p : DiscParams) (steps : List DStep) (st : DiscState)
    (ip : Str) (hip : ip ∈ p.ignored) (hc : cleanOf ip st) :
    cleanOf ip (runDisc p st steps) := by
  induction steps generalizing st with
  | nil => exact hc
  | cons x rest ih =>
    cases x with
    | sight s => exact ih _ (cleanOf_emitDevice p st s ip hip hc)
    | sweep now timeout => exact ih _ (cleanOf_sweepOnce st now timeout ip hc)
    | poll probe => exact ih _ (cleanOf_pollOnce st probe ip hc)

/-- C7.  No event of any kind is ever emitted about an ignored address: over
any sequence of sightings, sweeps and poll cycles from the initial state,
every emitted event's address differs from every ignore-listed address, and
the address never enters the seen-IP set or the registry. -/
theorem ignored_ip_never_emitted (p : DiscParams) (steps : List DStep) (ip : Str)
    (hip : ip ∈ p.ignored) :
    (∀ e ∈ (runDisc p discInit steps).events, eventIp e ≠ ip)
    ∧ ip ∉ (runDisc p discInit steps).seen_ips
    ∧ ∀ kr ∈ (runDisc p discInit steps).registry, ip ∉ kr.2.ips := by
  have := cleanOf_runDisc p steps discInit ip hip
    ⟨by simp [discInit], by simp [discInit], by simp [discInit]⟩
  exact ⟨this.2.2, this.1, this.2.1⟩

theorem foundEvents_append (a b : List DEvent) :
    foundEvents (a ++ b) = foundEvents a ++ foundEvents b := by
  unfold foundEvents
  rw [List.filter_append]

theorem findRec_append_of_none (reg l : List (Str × DevRec)) (key : Str)
    (h : findRec reg key = none) : findRec (reg ++ l) key = findRec l key := by
  unfold findRec at h ⊢
  rw [Option.map_eq_none'] at h
  rw [List.find?_append, h]
  rfl

theorem findRec_replaceRec_of_some (reg : List (Str × DevRec)) (key : Str)
    (r0 r : DevRec) (h : findRec reg key = some r0) :
    findRec (replaceRec reg key r) key = some r := by
  induction reg with
  | nil => simp [findRec] at h
  | cons p t ih =>
    rw [findRec_cons] at h
    unfold replaceRec
    rw [List.map_cons]
    by_cases hk : (p.1 == key) = true
    · rw [if_pos hk, findRec_cons]
      simp
    · rw [if_neg hk, findRec_cons, if_neg hk]
      rw [if_neg hk] at h
      exact ih h

theorem registerSight_find (reg : List (Str × DevRec)) (key base ip : Str)
    (now : Int) :
    ∃ r, findRec (registerSight reg key base ip now).1 key = some r
      ∧ r.last_seen = now ∧ ip ∈ r.ips := by
  rcases hfind : findRec reg key with _ | r0
  · refine ⟨⟨base, [ip], now⟩, ?_, rfl, by simp⟩
    rw [registerSight_none reg key base ip now hfind]
    show findRec (reg ++ [(key, ⟨base, [ip], now⟩)]) key = _
    rw [findRec_append_of_none reg _ key hfind, findRec_cons]
    simp
  · by_cases hm0 : ip ∈ r0.ips
    · refine ⟨{ r0 with last_seen := now }, ?_, rfl, hm0⟩
      rw [registerSight_some_known reg key base ip now r0 hfind hm0]
      exact findRec_replaceRec_of_some reg key r0 _ hfind
    · refine ⟨{ r0 with ips := r0.ips ++ [ip], last_seen := now }, ?_, rfl, by simp⟩
      rw [registerSight_some_new reg key base ip now r0 hfind hm0]
      exact findRec_replaceRec_of_some reg key r0 _ hfind

/-- C3.  A `device_found` event is emitted exactly when the sighting passes
the filters and is a new device or a new address for a known device; a
repeated identical sighting adds no `device_found` event; and an accepted
sighting always refreshes `last_seen` and records the address. -/
theorem device_found_only_first (p : DiscParams) (st : DiscState) (s : Sighting) :
    ((foundEvents (emitDevice p st s).events).length
      = (foundEvents st.events).length + (if isNewPair p st s then 1 else 0))
    ∧ (emitDevice p (emitDevice p st s) s).events = (emitDevice p st s).events
    ∧ (sightAccepted p s = true →
        ∃ r, findRec (emitDevice p st s).registry (sightKey s) = some r
          ∧ r.last_seen = s.now ∧ s.ip ∈ r.ips) := by
  by_cases hi : s.ip ∈ p.ignored
  · have h : emitDevice p st s = st := by
      rw [emitDevice_eq, if_pos hi]
    refine ⟨?_, by rw [h, h], ?_⟩
    · have : isNewPair p st s = false := by
        simp [isNewPair, sightAccepted, hi]
      rw [h, this]
      simp
    · intro hacc
      simp [sightAccepted, hi] at hacc
  · by_cases hstr : (p.strict && ! isBjornHostname (sightHost s)) = true
    · have h : emitDevice p st s = { st with seen_ips := addSeen st.seen_ips s.ip } := by
        rw [emitDevice_eq, if_neg hi, if_pos hstr]
      have h2 : emitDevice p { st with seen_ips := addSeen st.seen_ips s.ip } s
          = { st with seen_ips := addSeen (addSeen st.seen_ips s.ip) s.ip } := by
        rw [emitDevice_eq, if_neg hi, if_pos hstr]
      refine ⟨?_, by rw [h, h2], ?_⟩
      · have : isNewPair p st s = false := by
          simp [isNewPair, sightAccepted, hstr]
        rw [h, this]
        simp
      · intro hacc
        simp only [sightAccepted, Bool.and_eq_true] at hacc
        rw [hstr] at hacc
        simp at hacc
    · have hflags : ∀ reg : List (Str × DevRec), ∀ base : Str,
          ((registerSight reg (sightKey s) base s.ip s.now).2.1
            || (registerSight reg (sightKey s) base s.ip s.now).2.2)
          = (match findRec reg (sightKey s) with
             | none => true
             | some r => decide (s.ip ∉ r.ips)) := by
        intro reg base
        rcases hfind : findRec reg (sightKey s) with _ | r0
        · rw [registerSight_none reg _ base s.ip s.now hfind]
          rfl
        · by_cases hm0 : s.ip ∈ r0.ips
          · rw [registerSight_some_known reg _ base s.ip s.now r0 hfind hm0]
            simp [hm0]
          · rw [registerSight_some_new reg _ base s.ip s.now r0 hfind hm0]
            simp [hm0]
      have hnew : isNewPair p st s
          = (match findRec st.registry (sightKey s) with
             | none => true
             | some r => decide (s.ip ∉ r.ips)) := by
        unfold isNewPair
        have hacc : sightAccepted p s = true := by
          simp only [sightAccepted, Bool.and_eq_true, Bool.not_eq_true']
          exact ⟨by simpa using hi, by simpa using hstr⟩
        rw [hacc]
        simp
      have he : emitDevice p st s
          = { seen_ips := addSeen st.seen_ips s.ip,
              registry := (registerSight st.registry (sightKey s)
                (aliasFor st.aliasMap (sightKey s)).1 s.ip s.now).1,
              aliasMap := (aliasFor st.aliasMap (sightKey s)).2,
              events := st.events ++
                (if (registerSight st.registry (sightKey s)
                      (aliasFor st.aliasMap (sightKey s)).1 s.ip s.now).2.1
                    || (registerSight st.registry (sightKey s)
                      (aliasFor st.aliasMap (sightKey s)).1 s.ip s.now).2.2
                 then [DEvent.deviceFound (sightAlias st s) s.ip s.probe8000]
                 else []) } := by
        rw [emitDevice_eq, if_neg hi, if_neg hstr]
      obtain ⟨rr, hrr, hrlast, hrip⟩ := registerSight_find st.registry (sightKey s)
        (aliasFor st.aliasMap (sightKey s)).1 s.ip s.now
      refine ⟨?_, ?_, ?_⟩
      · rw [he]
        show (foundEvents (st.events ++ _)).length = _
        rw [foundEvents_append, List.length_append, hflags, hnew]
        congr 1
        rcases hfind : findRec st.registry (sightKey s) with _ | r0
        · simp [foundEvents]
        · by_cases hm0 : s.ip ∈ r0.ips <;> simp [foundEvents, hm0]
      · have he2 : emitDevice p (emitDevice p st s) s
            = { seen_ips := addSeen (emitDevice p st s).seen_ips s.ip,
                registry := (registerSight (emitDevice p st s).registry (sightKey s)
                  (aliasFor (emitDevice p st s).aliasMap (sightKey s)).1 s.ip s.now).1,
                aliasMap := (aliasFor (emitDevice p st s).aliasMap (sightKey s)).2,
                events := (emitDevice p st s).events ++
                  (if (registerSight (emitDevice p st s).registry (sightKey s)
                        (aliasFor (emitDevice p st s).aliasMap (sightKey s)).1
                        s.ip s.now).2.1
                      || (registerSight (emitDevice p st s).registry (sightKey s)
                        (aliasFor (emitDevice p st s).aliasMap (sightKey s)).1
                        s.ip s.now).2.2
                   then [DEvent.deviceFound (sightAlias (emitDevice p st s) s)
                          s.ip s.probe8000]
                   else []) } := by
          rw [emitDevice_eq p (emitDevice p st s) s, if_neg hi, if_neg hstr]
        rw [he2]
        show (emitDevice p st s).events ++ _ = (emitDevice p st s).events
        have hreg : (emitDevice p st s).registry
            = (registerSight st.registry (sightKey s)
              (aliasFor st.aliasMap (sightKey s)).1 s.ip s.now).1 := by
          rw [he]
        rw [hflags, hreg, hrr]
        simp [hrip]
      · intro _
        rw [he]
        show ∃ r, findRec (registerSight st.registry (sightKey s)
            (aliasFor st.aliasMap (sightKey s)).1 s.ip s.now).1 (sightKey s) = some r
          ∧ r.last_seen = s.now ∧ s.ip ∈ r.ips
        exact ⟨rr, hrr, hrlast, hrip⟩

/-- Concrete instantiation of `device_found_only_first` discharging its
hypothesis: one accepted sighting records the address with a fresh
`last_seen`. -/
theorem device_found_only_first_witness :
    ∃ r, findRec (emitDevice ⟨true, ["10.0.0.1".toList]⟩ discInit
        ⟨"bjorn-a".toList, "192.168.1.10".toList, none, false, 7⟩).registry
      (sightKey ⟨"bjorn-a".toList, "192.168.1.10".toList, none, false, 7⟩) = some r
      ∧ r.last_seen = 7 ∧ "192.168.1.10".toList ∈ r.ips :=
  (device_found_only_first ⟨true, ["10.0.0.1".toList]⟩ discInit
    ⟨"bjorn-a".toList, "192.168.1.10".toList, none, false, 7⟩).2.2 (by decide)

/-- Concrete instantiation of `ignored_ip_never_emitted` discharging its
hypothesis: a sighting, sweep and poll of an ignored gateway address emit
nothing about it. -/
theorem ignored_ip_never_emitted_witness :
    "10.0.0.1".toList ∉ (runDisc ⟨true, ["10.0.0.1".toList]⟩ discInit
      [DStep.sight ⟨"bjorn-a".toList, "10.0.0.1".toList, none, true, 0⟩,
       DStep.sweep 100 90, DStep.poll (fun _ => true)]).seen_ips :=
  (ignored_ip_never_emitted ⟨true, ["10.0.0.1".toList]⟩
      [DStep.sight ⟨"bjorn-a".toList, "10.0.0.1".toList, none, true, 0⟩,
       DStep.sweep 100 90, DStep.poll (fun _ => true)]
      "10.0.0.1".toList (by decide)).2.1

/-- Counterexample to C5 as stated: aliases are `"Bjorn <n>"`, not
`"Device <n>"`, and after the staleness sweep evicts the holder of
`"Bjorn 2"`, the next new device receives `"Bjorn 4"` — eviction does not
free the alias number. -/
theorem device_alias_counterexample :
    (aliasFor [] "bjorn-a".toList).1 = "Bjorn 1".toList
    ∧ (aliasFor [] "bjorn-a".toList).1 ≠ "Device 1".toList
    ∧ findRec evictFinal.registry "bjorn-b".toList = none
    ∧ evictFinal.events.getLast?
        = some (DEvent.deviceFound "Bjorn 4 (LAN)".toList "192.168.1.13".toList false)
    ∧ lookupAlias evictFinal.aliasMap "bjorn-d".toList = some "Bjorn 4".toList
    ∧ "Bjorn 4".toList ≠ "Device 2".toList := by
  refine ⟨by decide, by decide, by decide, by decide, by decide, by decide⟩

theorem canonMap_vals (ks : List Str) :
    (canonMap ks).map Prod.snd = canonAliases ks.length := by
  unfold canonMap
  apply List.map_snd_zip
  simp [canonAliases]

theorem mem_usedNums_canon (n : Nat) (z : Int) :
    z ∈ usedNums (canonAliases n) ↔ ∃ i : Nat, i < n ∧ z = ((i + 1 : Nat) : Int) := by
  rw [mem_usedNums]
  constructor
  · rintro ⟨a, ha, hp⟩
    rcases List.mem_map.mp ha with ⟨i, hi, he⟩
    rw [← he, parseAliasNum_mkBjorn] at hp
    exact ⟨i, List.mem_range.mp hi, (Option.some_inj.mp hp).symm⟩
  · rintro ⟨i, hi, rfl⟩
    exact ⟨mkBjorn (i + 1),
      List.mem_map_of_mem _ (List.mem_range.mpr hi), parseAliasNum_mkBjorn (i + 1)⟩

theorem nextIndex_canonMap (ks : List Str) :
    nextIndex (canonMap ks) = ks.length + 1 := by
  obtain ⟨h1, h2, h3⟩ := nextIndex_spec (canonMap ks)
  rw [canonMap_vals] at h2 h3
  have hge : ks.length + 1 ≤ nextIndex (canonMap ks) := by
    by_contra hlt
    push_neg at hlt
    apply h2
    rw [mem_usedNums_canon]
    refine ⟨nextIndex (canonMap ks) - 1, by omega, by omega⟩
  have hle : nextIndex (canonMap ks) ≤ ks.length + 1 := by
    by_contra hgt
    push_neg at hgt
    have := h3 (ks.length + 1) (by omega) (by omega)
    rw [mem_usedNums_canon] at this
    rcases this with ⟨i, hi, he⟩
    omega
  omega

theorem lookupAlias_canonMap (ks : List Str) (k : Str) (h : k ∉ ks) :
    lookupAlias (canonMap ks) k = none := by
  unfold lookupAlias
  rw [Option.map_eq_none']
  apply List.find?_eq_none.mpr
  intro x hx hbeq
  have hmem : x.1 ∈ ks := (List.of_mem_zip hx).1
  apply h
  rwa [show x.1 = k from by simpa using hbeq] at hmem

theorem canonAliases_succ (n : Nat) :
    canonAliases (n + 1) = canonAliases n ++ [mkBjorn (n + 1)] := by
  unfold canonAliases
  rw [List.range_succ, List.map_append]
  rfl

theorem canonMap_snoc (ks : List Str) (k : Str) :
    canonMap (ks ++ [k]) = canonMap ks ++ [(k, mkBjorn (ks.length + 1))] := by
  unfold canonMap
  rw [List.length_append, List.length_singleton, canonAliases_succ]
  rw [List.zip_append (by simp [canonAliases])]
  rfl

theorem allocAll_canon (keys : List Str) :
    ∀ ks0 : List Str, (ks0 ++ keys).Nodup →
      allocAll (canonMap ks0) keys = canonMap (ks0 ++ keys) := by
  induction keys with
  | nil =>
    intro ks0 _
    simp [allocAll]
  | cons k rest ih =>
    intro ks0 h
    have hk0 : k ∉ ks0 := by
      intro hmem
      rw [List.nodup_append] at h
      exact h.2.2 hmem (List.mem_cons_self k rest)
    show allocAll (aliasFor (canonMap ks0) k).2 rest = _
    have halias : (aliasFor (canonMap ks0) k).2 = canonMap (ks0 ++ [k]) := by
      unfold aliasFor
      rw [lookupAlias_canonMap ks0 k hk0]
      show canonMap ks0 ++ [(k, mkBjorn (nextIndex (canonMap ks0)))]
        = canonMap (ks0 ++ [k])
      rw [nextIndex_canonMap, canonMap_snoc]
    rw [halias, ih (ks0 ++ [k]) (by rw [List.append_assoc]; exact h)]
    rw [List.append_assoc]
    rfl

/-- C5 amended.  Alias allocation is deterministic and collision-free, with
aliases named `"Bjorn <n>"`: allocating for `N` distinct fresh keys yields
`"Bjorn 1" … "Bjorn N"` in order, and allocation always picks the lowest
index unused among the alias map's entries.  However, the staleness sweep
never touches the alias map, so evicting the device holding `"Bjorn 2"`
does not free the number: in the eviction scenario the binding
`bjorn-b ↦ "Bjorn 2"` survives the sweep (while the device is gone from the
registry) and the newly sighted device receives `"Bjorn 4"`. -/
theorem alias_allocation_lowest_unused (keys : List Str) (hnd : keys.Nodup) :
    allocAll [] keys
      = keys.zip ((List.range keys.length).map (fun i => mkBjorn (i + 1)))
    ∧ (∀ (st : DiscState) (now timeout : Int),
        (sweepOnce st now timeout).aliasMap = st.aliasMap)
    ∧ lookupAlias evictFinal.aliasMap "bjorn-b".toList = some "Bjorn 2".toList
    ∧ findRec evictFinal.registry "bjorn-b".toList = none
    ∧ lookupAlias evictFinal.aliasMap "bjorn-d".toList = some "Bjorn 4".toList := by
  refine ⟨?_, fun st now timeout => rfl, by decide, by decide, by decide⟩
  exact allocAll_canon keys [] (by simpa using hnd)

/-- Concrete instantiation of `alias_allocation_lowest_unused` discharging
its hypothesis: two fresh keys receive `"Bjorn 1"` and `"Bjorn 2"`. -/
theorem alias_allocation_lowest_unused_witness :
    allocAll [] ["a".toList, "b".toList]
      = [("a".toList, "Bjorn 1".toList), ("b".toList, "Bjorn 2".toList)] := by
  rw [(alias_allocation_lowest_unused ["a".toList, "b".toList] (by decide)).1]
  decide

/-- Counterexample to C9 as stated: a hostname with a `-`-separated prefix
before the device name, `"dev-bjorn"`, is rejected by the naming-convention
check, and a strict-mode sighting of it emits no `device_found`. -/
theorem bjorn_hostname_prefixed_rejected :
    isBjornHostname "dev-bjorn".toList = false
    ∧ foundEvents (emitDevice defaultParams discInit
        ⟨"dev-bjorn".toList, "192.168.1.50".toList, none, true, 0⟩).events = [] := by
  refine ⟨by decide, by decide⟩

/-- C9 amended.  The naming-convention check accepts exactly: the exact
name `bjorn`, names continuing `bjorn` with a `-` or `_` separator
(suffix variants such as `bjorn-dev`), and local-domain forms (any name
starting with `bjorn` and ending in `.local` or `.home`), all after
trimming, lower-casing and stripping trailing dots; a name with a leading
prefix before `bjorn`, such as `dev-bjorn`, is rejected even in strict
mode. -/
theorem bjorn_hostname_characterization (h0 : Str) :
    isBjornHostname h0 = bjornNameSpec h0
    ∧ isBjornHostname "bjorn-dev".toList = true
    ∧ isBjornHostname "bjorn_dev".toList = true
    ∧ isBjornHostname "bjorn.local".toList = true
    ∧ isBjornHostname "bjornx.home".toList = true
    ∧ isBjornHostname "dev-bjorn".toList = false
    ∧ (foundEvents (emitDevice defaultParams discInit
        ⟨"bjorn-dev".toList, "192.168.1.50".toList, none, false, 0⟩).events).length
      = 1 := by
  refine ⟨?_, by decide, by decide, by decide, by decide, by decide, by decide⟩
  unfold isBjornHostname bjornNameSpec
  by_cases he : h0.isEmpty
  · rw [if_pos he, if_pos he]
  · rw [if_neg he, if_neg he]
    split
    · next h12 =>
      simp only [Bool.or_eq_true, decide_eq_true_eq] at h12
      rcases h12 with h12 | h12 <;> rw [h12] <;> decide
    · next h12 =>
      split
      · next h3 =>
        rw [h3]
        simp
      · next h3 =>
        have h3f : (("bjorn".toList).isPrefixOf (bjornNorm h0)
            && ((".local".toList).isSuffixOf (bjornNorm h0)
                || (".home".toList).isSuffixOf (bjornNorm h0))) = false := by
          cases hb : (("bjorn".toList).isPrefixOf (bjornNorm h0)
              && ((".local".toList).isSuffixOf (bjornNorm h0)
                  || (".home".toList).isSuffixOf (bjornNorm h0)))
          · rfl
          · exact absurd hb h3
        rw [h3f]
        simp

/-- C6.  `connect` (i) attempts key authentication first whenever a usable
key resolves; (ii) falls back to password authentication whenever the key
attempt fails with a caught exception and a password is configured;
(iii) with a configured but unusable key path and a working password it
falls back and succeeds; and (iv) whenever it returns false an error-level
log event is present — the model is a total function, reflecting that
`connect` never raises to its caller. -/
theorem connect_key_first_password_fallback (env : KeyEnv) (net : NetEnv)
    (cfg : SSHCfg) :
    (∀ p, resolveKeyPath env cfg = some p →
      (connectModel env net cfg).2.1.head? = some (ConnAct.tryKey p))
    ∧ (∀ p, resolveKeyPath env cfg = some p →
        caughtKeyFailure (net.keyAuth p) = true → cfg.password.isEmpty = false →
        ConnAct.tryPassword ∈ (connectModel env net cfg).2.1)
    ∧ (cfg.key_path.isEmpty = false →
        env.isFile (env.expand cfg.key_path) = false →
        cfg.password.isEmpty = false → net.pwAuth = AuthOutcome.ok →
        (connectModel env net cfg).1 = true)
    ∧ ((connectModel env net cfg).1 = false →
        (connectModel env net cfg).2.2.any
          (fun l => l.level == "error".toList) = true) := by
  have hModelSome : ∀ p, resolveKeyPath env cfg = some p →
      connectModel env net cfg = connectWithKey net cfg p := by
    intro p hp
    unfold connectModel
    rw [hp]
  have hModelNone : resolveKeyPath env cfg = none →
      connectModel env net cfg = connectFallback net cfg [] [] := by
    intro hp
    unfold connectModel
    rw [hp]
  have hFallbackPw : ∀ acts logs, cfg.password.isEmpty = false →
      (connectFallback net cfg acts logs).2.1 = acts ++ [ConnAct.tryPassword] := by
    intro acts logs hpw
    unfold connectFallback
    rw [hpw]
    simp only [Bool.false_eq_true, if_false]
    cases net.pwAuth <;> rfl
  have hFallbackErr : ∀ acts logs,
      (connectFallback net cfg acts logs).1 = false →
      ((connectFallback net cfg acts logs).2.2.any
        (fun l => l.level == "error".toList)) = true := by
    intro acts logs
    unfold connectFallback
    split
    · intro _
      simp [List.any_append]
    · cases net.pwAuth
      case ok =>
        intro hfail
        simp at hfail
      all_goals intro _
      all_goals simp [List.any_append]
  refine ⟨?_, ?_, ?_, ?_⟩
  · intro p hp
    rw [hModelSome p hp]
    unfold connectWithKey
    cases hk : net.keyAuth p
    · rfl
    all_goals first
      | rfl
      | (show (connectFallback net cfg [ConnAct.tryKey p] _).2.1.head? = _
         unfold connectFallback
         split
         · rfl
         · cases net.pwAuth <;> rfl)
  · intro p hp hcaught hpw
    rw [hModelSome p hp]
    unfold connectWithKey
    cases hk : net.keyAuth p
    all_goals first
      | (rw [hk] at hcaught; exact absurd hcaught (by decide))
      | (show ConnAct.tryPassword ∈
            (connectFallback net cfg [ConnAct.tryKey p] _).2.1
         rw [hFallbackPw _ _ hpw]
         simp)
  · intro hkp hfile hpw hnet
    have hres : resolveKeyPath env cfg = none := by
      unfold resolveKeyPath
      rw [if_pos (by rw [hkp]; decide), if_neg (by rw [hfile]; decide)]
    rw [hModelNone hres]
    unfold connectFallback
    rw [hpw]
    simp only [Bool.false_eq_true, if_false]
    rw [hnet]
  · cases hres : resolveKeyPath env cfg with
    | some p =>
      rw [hModelSome p hres]
      unfold connectWithKey
      cases hk : net.keyAuth p
      case ok =>
        intro hfail
        simp at hfail
      case otherFail =>
        intro _
        simp
      all_goals exact hFallbackErr _ _
    | none =>
      rw [hModelNone hres]
      exact hFallbackErr _ _

/-- Concrete instantiation of `connect_key_first_password_fallback`
discharging its hypotheses: with an unusable configured key path and a
working password, `connect` succeeds. -/
theorem connect_key_first_password_fallback_witness :
    (connectModel ⟨id, fun _ => false, "/root".toList⟩
      ⟨fun _ => AuthOutcome.otherFail, AuthOutcome.ok⟩
      ⟨"/bad/key".toList, "pw".toList⟩).1 = true :=
  (connect_key_first_password_fallback ⟨id, fun _ => false, "/root".toList⟩
      ⟨fun _ => AuthOutcome.otherFail, AuthOutcome.ok⟩
      ⟨"/bad/key".toList, "pw".toList⟩).2.2.1
    (by decide) rfl (by decide) rfl

end BjornMgr

